import Mathlib

/-!
Verification of the WSP solver suite

Shallow embedding of the constraint-compilation and solving-orchestration
layer of the Workflow Satisfiability Problem repository
(`solver_combinatorial.py`, `solver_symmetry.py`, `solver_doreen.py`).

Modelling conventions:
* The backend CP engine (`ortools cp_model`) is an external collaborator.
  A compiled model is embedded by its satisfaction predicate over the
  assignment of users to steps; auxiliary variables created during
  compilation (reified booleans, slot variables, team selectors, flags)
  are existentially quantified in that predicate, exactly as posted.
  A `Solver` variant reports `'sat'` iff its compiled model is satisfiable
  (the backend is assumed sound and complete on these finite models).
* `solver_combinatorial.py` / `solver_symmetry.py` use one integer
  variable per step with domain `[1, users_count]`; an assignment is a
  function `a : ℕ → ℕ` on step identifiers `1..N`.
* `solver_doreen.py` uses a boolean matrix `user_assignment[s][u]`
  (0-based) with an exactly-one-per-step constraint; such a matrix is
  exactly the graph of a total function `a : ℕ → ℕ` with `a s < M`,
  which is how it is embedded.
* Wall-clock fields (`exe_time`) are not modelled.
-/

/-- Backend solver status (`cp_model` solve statuses). -/
inductive CpStatus where
  | unknown
  | model_invalid
  | feasible
  | infeasible
  | optimal
deriving DecidableEq, Repr

/-- The result dictionary `d` built by the solvers
(`sat`, `sol`, `mul_sol`; the wall-clock `exe_time` field is not modelled). -/
structure SolveResult where
  sat : String
  sol : List String
  mul_sol : String
deriving DecidableEq, Repr

/-- `solver_combinatorial.py` lines 187-200 (and `solver_symmetry.py` lines
215-233): `d['sat']` starts as `'unsat'` and is set to `'sat'` exactly when
the backend status is `OPTIMAL` or `FEASIBLE`; `solution` is the list of
formatted step lines read from the solver on success. -/
def combResult (status : CpStatus) (solution : List String) : SolveResult :=
  if status = CpStatus.optimal ∨ status = CpStatus.feasible then
    { sat := "sat", sol := solution, mul_sol := "" }
  else
    { sat := "unsat", sol := [], mul_sol := "" }

/-- `solver_doreen.py` lines 185-201 (single-solution branch): same status
mapping, plus a `mul_sol` note distinguishing `FEASIBLE` from `OPTIMAL`. -/
def doreenSingleResult (status : CpStatus) (solution : List String) : SolveResult :=
  if status = CpStatus.feasible ∨ status = CpStatus.optimal then
    { sat := "sat", sol := solution,
      mul_sol := if status = CpStatus.feasible then "Multiple solutions may exist"
                 else "Unique solution found" }
  else
    { sat := "unsat", sol := [], mul_sol := "" }

/-- State of `MultiSolutionCallback` (`solver_doreen.py` lines 206-226):
`_count`, the `solutions_found` list, and whether `StopSearch()` was
signalled to the backend. -/
structure EnumState (α : Type) where
  count : ℕ
  found : List α
  stopped : Bool

/-- One invocation of `on_solution_callback`: if the limit is already
reached, signal `StopSearch` and record nothing; otherwise record the
solution.  A callback on a stopped state is never delivered (the backend
honours `StopSearch`), embedded by leaving a stopped state unchanged. -/
def callbackStep {α : Type} (limit : ℕ) (st : EnumState α) (sol : α) : EnumState α :=
  if st.stopped then st
  else if limit ≤ st.count then { st with stopped := true }
  else { count := st.count + 1, found := st.found ++ [sol], stopped := st.stopped }

/-- The whole enumeration run: the backend feeds every model solution, in
discovery order, to the callback until `StopSearch`. -/
def runEnum {α : Type} (limit : ℕ) (sols : List α) : EnumState α :=
  sols.foldl (callbackStep limit) { count := 0, found := [], stopped := false }

/-- The multi-solution block list (`solver_doreen.py` lines 236-238):
`"Solution {idx}:\n" + "\n".join(sol)` for each recorded solution,
1-indexed in discovery order. -/
def solutionBlocks (solutionsFound : List (List String)) : List String :=
  (List.range solutionsFound.length).map fun idx =>
    "Solution " ++ toString (idx + 1) ++ ":\n" ++
      String.intercalate "\n" (solutionsFound.getD idx [])

/-- `solver_doreen.py` lines 229-240 (multi-solution branch): the result
packaged from `solutions_found`. -/
def doreenMultiResult (solutionsFound : List (List String)) : SolveResult :=
  if 0 < solutionsFound.length then
    { sat := "sat", sol := solutionsFound.getD 0 [],
      mul_sol := String.intercalate "\n\n" (solutionBlocks solutionsFound) }
  else
    { sat := "unsat", sol := [], mul_sol := "" }

/-- Tagged constraint values, carrying identifiers exactly as written in
the instance file (1-based steps `s<i>` and users `u<i>`). -/
inductive Constr where
  | auth (u : ℕ) (allowed : List ℕ)
  | sod (s1 s2 : ℕ)
  | bod (s1 s2 : ℕ)
  | amk (k : ℕ) (steps : List ℕ)
  | oneTeam (steps : List ℕ) (teams : List (List ℕ))
  | userCap (u cap : ℕ)
deriving DecidableEq, Repr

/-- The step identifiers `1..N` (`range(steps_count)` shifted to the
1-based identifiers the integer variables stand for). -/
def stepRange (N : ℕ) : List ℕ := List.range' 1 N

/-- The `user_authorisations` dictionary built by the shared
Authorisations branch of `solver_combinatorial.py` lines 48-61 and
`solver_symmetry.py` lines 48-61: a duplicate entry for an already-seen
user is skipped with a warning (first occurrence wins). -/
def firstWinsAuthAux (seen : List ℕ) : List Constr → List (ℕ × List ℕ)
  | [] => []
  | Constr.auth u al :: rest =>
      if u ∈ seen then firstWinsAuthAux seen rest
      else (u, al) :: firstWinsAuthAux (u :: seen) rest
  | _ :: rest => firstWinsAuthAux seen rest

/-- The effective (first-wins) authorisation table of a constraint list. -/
def firstWinsAuth (cs : List Constr) : List (ℕ × List ℕ) :=
  firstWinsAuthAux [] cs

/-- A constraint list with every later duplicate `Authorisations` entry
removed (used to state the first-wins policy). -/
def dedupAuthAux (seen : List ℕ) : List Constr → List Constr
  | [] => []
  | Constr.auth u al :: rest =>
      if u ∈ seen then dedupAuthAux seen rest
      else Constr.auth u al :: dedupAuthAux (u :: seen) rest
  | c :: rest => c :: dedupAuthAux seen rest

def dedupAuth (cs : List Constr) : List Constr :=
  dedupAuthAux [] cs

/-- Domains of the step variables: `model.NewIntVar(1, users_count, ...)`
for each step. -/
def domainClause (N M : ℕ) (a : ℕ → ℕ) : Prop :=
  ∀ s ∈ stepRange N, 1 ≤ a s ∧ a s ≤ M

/-- The posted authorisation constraints (shared by both strategy solvers):
for every effective entry `(u, allowed)` and every step not in `allowed`,
`assignments[step] != u`. -/
def authClause (N : ℕ) (cs : List Constr) (a : ℕ → ℕ) : Prop :=
  ∀ p ∈ firstWinsAuth cs, ∀ s ∈ stepRange N, s ∉ p.2 → a s ≠ p.1

/-- Direct (combinatorial) At-most-k encoding, `solver_combinatorial.py`
lines 73-92: when `k < len(steps)`, for every `(k+1)`-combination of the
step list, a reified same-user boolean is created per pair and their
disjunction is posted; projected on the assignment this says the combo's
values are not pairwise distinct.  When `k >= len(steps)` nothing is
posted. -/
def atMostKDirectSat (k : ℕ) (S : List ℕ) (a : ℕ → ℕ) : Prop :=
  k < S.length →
    ∀ combo ∈ List.sublistsLen (k + 1) S,
      ¬ combo.Pairwise (fun i j => a i ≠ a j)

/-- Symmetry-reduced At-most-k encoding, `solver_symmetry.py` lines 73-97:
`k` slot variables `user_vars` with domain `[1, users_count]`, ordered
adjacently (`user_vars[i] < user_vars[i+1]`), and for each step of the
constraint an exactly-one family of booleans each forcing
`assignments[step] == user_vars[i]`.  No `k >= len(steps)` guard exists in
this solver.  Projected on the assignment, the slots are existentially
quantified. -/
def atMostKSymSat (M k : ℕ) (S : List ℕ) (a : ℕ → ℕ) : Prop :=
  ∃ u : ℕ → ℕ,
    (∀ i, i < k → 1 ≤ u i ∧ u i ≤ M) ∧
    (∀ i, i + 1 < k → u i < u (i + 1)) ∧
    (∀ s ∈ S, ∃ i, i < k ∧ a s = u i)

/-- The specification's At-most-k invariant (from the spec's words):
`|{assigned(s) : s ∈ S}| ≤ k`. -/
def specAtMostK (k : ℕ) (S : List ℕ) (a : ℕ → ℕ) : Prop :=
  ((S.map a).toFinset).card ≤ k

/-- `itertools.product(team, repeat=m)`: all `m`-tuples over `team`. -/
def listPow (team : List ℕ) : ℕ → List (List ℕ)
  | 0 => [[]]
  | m + 1 => team.flatMap fun x => (listPow team m).map (x :: ·)

/-- `solver_combinatorial.py` lines 130-134: the allowed-assignment table,
the union over each team of all `|S|`-tuples over that team. -/
def allowedCombinations (teams : List (List ℕ)) (m : ℕ) : List (List ℕ) :=
  teams.flatMap fun team => listPow team m

/-- Direct One-team encoding (`solver_combinatorial.py` lines 94-136): the
constraint is stored only if both the step list and the team list parsed
nonempty (otherwise a warning is printed and it is skipped), and then
`AddAllowedAssignments(step_vars, allowed_combinations)` is posted. -/
def oneTeamDirectSat (S : List ℕ) (teams : List (List ℕ)) (a : ℕ → ℕ) : Prop :=
  S ≠ [] → teams ≠ [] → (S.map a) ∈ allowedCombinations teams S.length

/-- The One-team payloads the symmetry solver stores (same nonempty
guards as the direct solver, `solver_symmetry.py` lines 101-131). -/
def oneTeamData (cs : List Constr) : List (List ℕ × List (List ℕ)) :=
  cs.filterMap fun c =>
    match c with
    | Constr.oneTeam S teams =>
        if S ≠ [] ∧ teams ≠ [] then some (S, teams) else none
    | _ => none

/-- Symmetry-reduced One-team encoding (`solver_symmetry.py` lines
133-197), projected on the assignment: one team index is selected per
stored constraint (the exactly-one over `team_vars`); if a team is
selected, every step of the constraint is assigned one of its members
(the conditional `AddBoolOr` over reified membership booleans); and for
any two stored constraints sharing a step, two disjoint candidate teams
cannot both be selected (`selected_i + selected_j <= 1`).  The reprocessing
of the accumulated constraint list on every iteration of the outer parse
loop posts these same projected conditions repeatedly over fresh selector
booleans, so the conjunction over all passes equals the condition for the
full list. -/
def symOneTeamGlobal (otcs : List (List ℕ × List (List ℕ))) (a : ℕ → ℕ) : Prop :=
  ∃ sel : ℕ → ℕ,
    (∀ j, ∀ hj : j < otcs.length,
      sel j < (otcs.get ⟨j, hj⟩).2.length ∧
      ∀ s ∈ (otcs.get ⟨j, hj⟩).1, a s ∈ (otcs.get ⟨j, hj⟩).2.getD (sel j) []) ∧
    (∀ j1 j2, ∀ hj1 : j1 < otcs.length, ∀ hj2 : j2 < otcs.length, j1 ≠ j2 →
      ∀ s, s ∈ (otcs.get ⟨j1, hj1⟩).1 → s ∈ (otcs.get ⟨j2, hj2⟩).1 →
      ∀ t1i, t1i < (otcs.get ⟨j1, hj1⟩).2.length →
      ∀ t2i, t2i < (otcs.get ⟨j2, hj2⟩).2.length →
        (∀ x ∈ (otcs.get ⟨j1, hj1⟩).2.getD t1i [],
            x ∉ (otcs.get ⟨j2, hj2⟩).2.getD t2i []) →
        ¬ (sel j1 = t1i ∧ sel j2 = t2i))

/-- User-capacity encoding (`solver_combinatorial.py` lines 144-153): a
reified is-assigned boolean per step, `sum <= capacity`; projected this is
a count over steps `1..N`. -/
def userCapSat (N : ℕ) (u cap : ℕ) (a : ℕ → ℕ) : Prop :=
  ((stepRange N).countP fun s => a s == u) ≤ cap

/-- Per-constraint posted semantics in `solver_combinatorial.py`
(authorisations are handled at the model level through `authClause`). -/
def combConstrSat (N : ℕ) (a : ℕ → ℕ) : Constr → Prop
  | Constr.auth _ _ => True
  | Constr.sod s1 s2 => a s1 ≠ a s2
  | Constr.bod s1 s2 => a s1 = a s2
  | Constr.amk k S => atMostKDirectSat k S a
  | Constr.oneTeam S teams => oneTeamDirectSat S teams a
  | Constr.userCap u cap => userCapSat N u cap a

/-- Per-constraint posted semantics in `solver_symmetry.py`.  One-team is
handled at the model level (`symOneTeamGlobal`); `User-capacity` lines
match no branch of this solver's dispatch and are silently ignored. -/
def symConstrSat (M : ℕ) (a : ℕ → ℕ) : Constr → Prop
  | Constr.auth _ _ => True
  | Constr.sod s1 s2 => a s1 ≠ a s2
  | Constr.bod s1 s2 => a s1 = a s2
  | Constr.amk k S => atMostKSymSat M k S a
  | Constr.oneTeam _ _ => True
  | Constr.userCap _ _ => True

/-- Satisfaction of the model compiled by `solver_combinatorial.py` from
steps count `N`, users count `M` and the parsed constraint list. -/
def combSat (N M : ℕ) (cs : List Constr) (a : ℕ → ℕ) : Prop :=
  domainClause N M a ∧ authClause N cs a ∧ ∀ c ∈ cs, combConstrSat N a c

/-- Satisfaction of the model compiled by `solver_symmetry.py`. -/
def symSat (N M : ℕ) (cs : List Constr) (a : ℕ → ℕ) : Prop :=
  domainClause N M a ∧ authClause N cs a ∧
    (∀ c ∈ cs, symConstrSat M a c) ∧ symOneTeamGlobal (oneTeamData cs) a

/-- The `Instance` class of `solver_doreen.py` (lines 17-27): steps and
users are 0-based inside, `auth` is one list per user (with `-1` as the
"no steps" sentinel, hence integer entries). -/
structure DInstance where
  number_of_steps : ℕ
  number_of_users : ℕ
  number_of_constraints : ℕ
  auth : List (List ℤ)
  SOD : List (ℕ × ℕ)
  BOD : List (ℕ × ℕ)
  at_most_k : List (ℕ × List ℕ)
  one_team : List (List ℕ × List (List ℕ))
  user_capacity : List (ℕ × ℕ)
deriving Repr

/-- `solver_doreen.py` lines 50-54: the step list recorded for an
`Authorisations` line starts as `[-1]`; the sentinel is removed as soon as
a first step is found and each step is stored 0-based. -/
def dAuthSteps (allowed : List ℕ) : List ℤ :=
  if allowed = [] then [-1] else allowed.map fun (s : ℕ) => (s : ℤ) - 1

/-- One parsed constraint applied to the accumulating `Instance`
(`solver_doreen.py` lines 47-95); identifiers are converted to 0-based.
A duplicate `Authorisations` entry *extends* the user's list (line 55). -/
def dApplyConstr (inst : DInstance) : Constr → DInstance
  | Constr.auth u al =>
      { inst with auth := inst.auth.set (u - 1) ((inst.auth.getD (u - 1) []) ++ dAuthSteps al) }
  | Constr.sod s1 s2 => { inst with SOD := inst.SOD ++ [(s1 - 1, s2 - 1)] }
  | Constr.bod s1 s2 => { inst with BOD := inst.BOD ++ [(s1 - 1, s2 - 1)] }
  | Constr.amk k S => { inst with at_most_k := inst.at_most_k ++ [(k, S.map (· - 1))] }
  | Constr.oneTeam S teams =>
      { inst with one_team := inst.one_team ++ [(S.map (· - 1), teams.map (List.map (· - 1)))] }
  | Constr.userCap u cap => { inst with user_capacity := inst.user_capacity ++ [(u - 1, cap)] }

/-- The `Instance` built by `parse_file` of `solver_doreen.py` from header
counts and the parsed constraint list (`auth` initialised to one empty
list per user, line 43). -/
def dParse (N M : ℕ) (cs : List Constr) : DInstance :=
  cs.foldl dApplyConstr
    { number_of_steps := N, number_of_users := M, number_of_constraints := cs.length,
      auth := List.replicate M [], SOD := [], BOD := [], at_most_k := [],
      one_team := [], user_capacity := [] }

/-- Authorisation constraints posted for one user (`solver_doreen.py`
lines 133-144): a lone `-1` blocks every step; a nonempty list blocks
every step outside it; an empty list (no entry) posts nothing. -/
def dAuthSat (N : ℕ) (u : ℕ) (lst : List ℤ) (a : ℕ → ℕ) : Prop :=
  if lst.length = 1 ∧ lst.getD 0 0 = -1 then ∀ s, s < N → a s ≠ u
  else if 0 < lst.length then ∀ s, s < N → (s : ℤ) ∉ lst → a s ≠ u
  else True

/-- At-most-k in `solver_doreen.py` lines 156-165: one flag boolean per
user, forced up by any assignment in the step set, forced down when the
user is assigned nowhere in it, and `sum(user_flag) <= k`. -/
def dAtMostKSat (M k : ℕ) (stp : List ℕ) (a : ℕ → ℕ) : Prop :=
  ∃ flag : ℕ → Bool,
    (∀ u, u < M → ∀ ss ∈ stp, a ss = u → flag u = true) ∧
    (∀ u, u < M → flag u = true → ∃ ss ∈ stp, a ss = u) ∧
    ((List.range M).countP flag ≤ k)

/-- Satisfaction of the model compiled by `solver_doreen.py` (lines
122-181) from an `Instance`, with the exactly-one boolean matrix
represented by its induced total assignment `a : step → user`
(0-based). -/
def doreenSat (inst : DInstance) (a : ℕ → ℕ) : Prop :=
  (∀ s, s < inst.number_of_steps → a s < inst.number_of_users) ∧
  (∀ u, u < inst.number_of_users → dAuthSat inst.number_of_steps u (inst.auth.getD u []) a) ∧
  (∀ p ∈ inst.SOD, ∀ u, u < inst.number_of_users → ¬ (a p.1 = u ∧ a p.2 = u)) ∧
  (∀ p ∈ inst.BOD, ∀ u, u < inst.number_of_users → a p.1 = u → a p.2 = u) ∧
  (∀ p ∈ inst.at_most_k, dAtMostKSat inst.number_of_users p.1 p.2 a) ∧
  (∀ p ∈ inst.one_team,
    ∃ i, i < p.2.length ∧
      ∀ s ∈ p.1, ∀ u, u < inst.number_of_users → u ∉ p.2.getD i [] → a s ≠ u) ∧
  (∀ p ∈ inst.user_capacity,
    ((List.range inst.number_of_steps).countP fun s => a s == p.1) ≤ p.2)

/-- The allowed-step lists of the `Authorisations` entries for user `u`
in file order. -/
def authListsFor (u : ℕ) (cs : List Constr) : List (List ℕ) :=
  cs.filterMap fun c =>
    match c with
    | Constr.auth v al => if v = u then some al else none
    | _ => none

/-! ## Text-level parsing models

`solver_combinatorial.py` reads all lines, parses three header counts with
`int(line.split(': ')[1])`, diverts `User-capacity` lines, and keeps every
other line of `lines[3:]` as a raw constraint string; its `Solver`
dispatches on the first whitespace token.  `solver_doreen.py` reads the
headers with an anchored regex and classifies exactly `#Constraints`
lines against six prefix regexes, raising on the first line matching
none.  Lines are modelled without their trailing newline (so the `$`
anchor is end-of-string, as for Python which lets `$` match before a
trailing newline).  Python regex prefix matching (`re.match`) and
`re.finditer` scanning are modelled character by character. -/

/-- Value of a nonempty decimal digit string. -/
def natDigitsVal (cs : List Char) : ℕ :=
  cs.foldl (fun acc c => acc * 10 + (c.toNat - 48)) 0

/-- `\d+` consuming the whole remaining string. -/
def natDigits? (cs : List Char) : Option ℕ :=
  if cs ≠ [] ∧ cs.all Char.isDigit then some (natDigitsVal cs) else none

/-- Literal prefix matcher: consume `pat` from the front. -/
def matchLit : List Char → List Char → Option (List Char)
  | [], cs => some cs
  | _ :: _, [] => none
  | p :: ps, c :: cs => if c = p then matchLit ps cs else none

def matchStr (pat : String) (cs : List Char) : Option (List Char) :=
  matchLit pat.data cs

/-- Python `str.strip()`: remove leading and trailing whitespace
(implemented on the character list so that concrete inputs evaluate). -/
def pyStrip (s : String) : String :=
  ⟨((s.data.dropWhile Char.isWhitespace).reverse.dropWhile Char.isWhitespace).reverse⟩

/-- Python `int()` on a string: surrounding whitespace stripped, optional
sign, decimal digits (exotic accepted forms such as underscores or
non-ASCII digits are outside the modelled fragment). -/
def pyInt (s : String) : Option ℤ :=
  match (pyStrip s).data with
  | [] => none
  | c :: rest =>
      if c = '+' then (natDigits? rest).map Int.ofNat
      else if c = '-' then (natDigits? rest).map fun n => -(n : ℤ)
      else (natDigits? (c :: rest)).map Int.ofNat

/-- Python `str.split()` with no argument: split on whitespace runs,
discarding empty pieces. -/
def pySplitAux : List Char → List Char → List String
  | [], acc => if acc = [] then [] else [⟨acc.reverse⟩]
  | c :: rest, acc =>
      if c.isWhitespace then
        if acc = [] then pySplitAux rest []
        else ⟨acc.reverse⟩ :: pySplitAux rest []
      else pySplitAux rest (c :: acc)

def pySplit (s : String) : List String :=
  pySplitAux s.data []

/-- Python `str.startswith`. -/
def pyStartsWith (pre s : String) : Bool :=
  (matchLit pre.data s.data).isSome

/-- Python `str.split(': ')` (the header separator used by
`parse_file` of `solver_combinatorial.py`): leftmost non-overlapping
occurrences of the two-character separator. -/
def headerSplitAux : List Char → List Char → List (List Char)
  | ':' :: ' ' :: rest, acc => acc.reverse :: headerSplitAux rest []
  | c :: rest, acc => headerSplitAux rest (c :: acc)
  | [], acc => [acc.reverse]

/-- Greedy `\d+`: the maximal nonempty digit run and the rest.  (Wherever
this model uses it, the regex context that follows cannot consume a
digit, so greedy matching with no backtracking is faithful.) -/
def digits1 (cs : List Char) : Option (ℕ × List Char) :=
  let ds := cs.takeWhile Char.isDigit
  if ds = [] then none else some (natDigitsVal ds, cs.drop ds.length)

/-- All occurrences of `c(\d+)` in the character list, in order
(`re.finditer` semantics: scanning resumes after each match). -/
def findNumsAux (c : Char) : List Char → List ℕ
  | [] => []
  | x :: rest =>
      if x = c ∧ rest.takeWhile Char.isDigit ≠ [] then
        natDigitsVal (rest.takeWhile Char.isDigit) ::
          findNumsAux c (rest.drop (rest.takeWhile Char.isDigit).length)
      else findNumsAux c rest
termination_by l => l.length
decreasing_by
  · simp only [List.length_drop, List.length_cons]
    omega
  · simp

def findNums (c : Char) (s : String) : List ℕ :=
  findNumsAux c s.data

/-- Body of one `\((u\d+\s*)+\)` match of `solver_doreen.py` line 83,
entered just after the `(`: at least one `u`-number, each followed by
optional whitespace, then `)`.  Returns the numbers and the rest of the
input after the closing paren. -/
def dTeamBody : List Char → Option (List ℕ × List Char)
  | 'u' :: cs =>
      if (cs.takeWhile Char.isDigit) = [] then none
      else
        match h : (cs.drop (cs.takeWhile Char.isDigit).length).dropWhile Char.isWhitespace with
        | ')' :: cs2 => some ([natDigitsVal (cs.takeWhile Char.isDigit)], cs2)
        | rest2 =>
            match dTeamBody rest2 with
            | some (ns, cs2) => some (natDigitsVal (cs.takeWhile Char.isDigit) :: ns, cs2)
            | none => none
  | _ => none
termination_by l => l.length
decreasing_by
  have h2 : ((cs.drop (cs.takeWhile Char.isDigit).length).dropWhile Char.isWhitespace).length ≤
      (cs.drop (cs.takeWhile Char.isDigit).length).length :=
    (List.dropWhile_sublist _).length_le
  have h3 := congrArg List.length h
  simp only [List.length_drop, List.length_cons] at *
  omega

/-- A successful `\((u\d+\s*)+\)` match consumes at least its own
characters: the returned rest is a suffix of the input (needed for
termination of the `finditer` scanners). -/
theorem dTeamBody_length :
    ∀ cs ns rest, dTeamBody cs = some (ns, rest) → rest.length ≤ cs.length := by
  intro cs
  induction cs using dTeamBody.induct with
  | case1 cs hds =>
      intro ns rest h
      simp [dTeamBody, hds] at h
  | case2 cs hds cs2 heq =>
      intro ns rest h
      rw [dTeamBody, if_neg hds] at h
      have hdw : ((cs.drop (cs.takeWhile Char.isDigit).length).dropWhile Char.isWhitespace).length ≤
          (cs.drop (cs.takeWhile Char.isDigit).length).length :=
        (List.dropWhile_sublist _).length_le
      split at h
      · rename_i cs2b heq2
        injection h with h1
        cases h1
        have := congrArg List.length heq2
        simp only [List.length_drop, List.length_cons] at *
        omega
      · rename_i hno
        exact absurd (hno cs2 heq) id
  | case3 cs hds ns0 cs2 hne hrec ih =>
      intro ns rest h
      rw [dTeamBody, if_neg hds] at h
      have hdw : ((cs.drop (cs.takeWhile Char.isDigit).length).dropWhile Char.isWhitespace).length ≤
          (cs.drop (cs.takeWhile Char.isDigit).length).length :=
        (List.dropWhile_sublist _).length_le
      split at h
      · rename_i cs2b heq2
        exact absurd (hne cs2b heq2) id
      · rename_i hno
        rw [hrec] at h
        injection h with h1
        cases h1
        have := ih ns0 cs2 hrec
        simp only [List.length_drop, List.length_cons] at *
        omega
  | case4 cs hds hne hrec ih =>
      intro ns rest h
      rw [dTeamBody, if_neg hds] at h
      split at h
      · rename_i cs2b heq2
        exact absurd (hne cs2b heq2) id
      · rw [hrec] at h
        exact Option.noConfusion h
  | case5 x hx =>
      intro ns rest h
      rw [dTeamBody.eq_def] at h
      split at h
      · exact absurd rfl (hx _)
      · exact Option.noConfusion h

/-- `re.finditer(r'\((u\d+\s*)+\)', l)` with the `u`-numbers of each
match extracted (`solver_doreen.py` lines 83-87): scan for `(`, try the
body; on success resume after the match, on failure resume after the
`(`. -/
def dFindTeams : List Char → List (List ℕ)
  | [] => []
  | '(' :: cs =>
      match h : dTeamBody cs with
      | some (ns, rest) => ns :: dFindTeams rest
      | none => dFindTeams cs
  | _ :: cs => dFindTeams cs
termination_by l => l.length
decreasing_by
  · have := dTeamBody_length cs ns rest h
    simp only [List.length_cons]
    omega
  · simp
  · simp

/-- One `\(([^)]+)\)` match attempt (`solver_combinatorial.py` line 107)
entered just after the `(`: a nonempty run of non-`)` characters, then
`)`.  Returns the captured content and the rest after the `)`. -/
def combParenAt (cs : List Char) : Option (List Char × List Char) :=
  let content := cs.takeWhile fun c => c ≠ ')'
  if content = [] then none
  else
    match cs.drop content.length with
    | ')' :: rest => some (content, rest)
    | _ => none

theorem combParenAt_length :
    ∀ cs content rest, combParenAt cs = some (content, rest) → rest.length < cs.length := by
  intro cs content rest h
  rw [combParenAt] at h
  split at h
  · exact Option.noConfusion h
  · rename_i hne
    split at h
    · rename_i rest2 heq
      injection h with h1
      cases h1
      have h2 := congrArg List.length heq
      have h3 : (cs.takeWhile fun c => c ≠ ')').length ≤ cs.length :=
        (List.takeWhile_sublist _).length_le
      simp only [List.length_drop, List.length_cons] at *
      have h4 : (cs.takeWhile fun c => c ≠ ')').length ≠ 0 := by
        simpa [List.length_eq_zero] using hne
      omega
    · exact Option.noConfusion h

/-- `re.findall(r'\(([^)]+)\)', line)` followed by
`re.findall(r'u(\d+)', team_str)` on each captured group
(`solver_combinatorial.py` lines 107-111). -/
def combFindTeams : List Char → List (List ℕ)
  | [] => []
  | '(' :: cs =>
      match h : combParenAt cs with
      | some (content, rest) => findNumsAux 'u' content :: combFindTeams rest
      | none => combFindTeams cs
  | _ :: cs => combFindTeams cs
termination_by l => l.length
decreasing_by
  · have := combParenAt_length cs content rest h
    simp only [List.length_cons]
    omega
  · simp
  · simp

/-- `read_attribute` of `solver_doreen.py` lines 30-36:
`re.match(f'{name}:\s*(\d+)$', line)` — the literal name and colon, any
whitespace, then digits up to the end of the line. -/
def readAttribute (name : String) (line : String) : Option ℕ :=
  match matchStr (name ++ ":") line.data with
  | none => none
  | some rest => natDigits? (rest.dropWhile Char.isWhitespace)

/-- Prefix match of `r"Authorisations u(\d+)(?: s\d+)*"` followed by the
`re.finditer(r's(\d+)', l)` step extraction (`solver_doreen.py` lines
47-55; the recorded constraint keeps the identifiers as written,
`dApplyConstr` performs the 0-based conversion and `-1` sentinel
handling). -/
def dMatchAuth (l : String) : Option Constr :=
  match matchStr "Authorisations u" l.data with
  | none => none
  | some rest =>
      match digits1 rest with
      | none => none
      | some (u, _) => some (Constr.auth u (findNums 's' l))

/-- Prefix match of `r'Separation-of-duty s(\d+) s(\d+)'`. -/
def dMatchSod (l : String) : Option Constr :=
  match matchStr "Separation-of-duty s" l.data with
  | none => none
  | some r1 =>
      match digits1 r1 with
      | none => none
      | some (s1, r2) =>
          match matchStr " s" r2 with
          | none => none
          | some r3 =>
              match digits1 r3 with
              | none => none
              | some (s2, _) => some (Constr.sod s1 s2)

/-- Prefix match of `r'Binding-of-duty s(\d+) s(\d+)'`. -/
def dMatchBod (l : String) : Option Constr :=
  match matchStr "Binding-of-duty s" l.data with
  | none => none
  | some r1 =>
      match digits1 r1 with
      | none => none
      | some (s1, r2) =>
          match matchStr " s" r2 with
          | none => none
          | some r3 =>
              match digits1 r3 with
              | none => none
              | some (s2, _) => some (Constr.bod s1 s2)

/-- Prefix match of `r'At-most-k (\d+) (s\d+)(?: (s\d+))*'`; the step
list is then taken from `re.finditer(r's(\d+)', l)` over the whole
line. -/
def dMatchAmk (l : String) : Option Constr :=
  match matchStr "At-most-k " l.data with
  | none => none
  | some r1 =>
      match digits1 r1 with
      | none => none
      | some (k, r2) =>
          match matchStr " s" r2 with
          | none => none
          | some r3 =>
              match digits1 r3 with
              | none => none
              | some (_, _) => some (Constr.amk k (findNums 's' l))

/-- Prefix match of `r'One-team\s+(s\d+)(?: s\d+)* (\((u\d+)*\))*'`.
With backtracking, this pattern accepts exactly the lines starting
`One-team`, whitespace, one `s`-number, then a literal space (the
trailing starred groups may match zero occurrences, but the literal
space before them must be present).  Steps then come from
`re.finditer(r's(\d+)', l)` and teams from
`re.finditer(r'\((u\d+\s*)+\)', l)`. -/
def dMatchOneTeam (l : String) : Option Constr :=
  match matchStr "One-team" l.data with
  | none => none
  | some r1 =>
      if r1.takeWhile Char.isWhitespace = [] then none
      else
        match matchStr "s" (r1.dropWhile Char.isWhitespace) with
        | none => none
        | some r3 =>
            match digits1 r3 with
            | none => none
            | some (_, r4) =>
                match r4 with
                | ' ' :: _ => some (Constr.oneTeam (findNums 's' l) (dFindTeams l.data))
                | _ => none

/-- Prefix match of `r'User-capacity u(\d+) (\d+)'`. -/
def dMatchUcap (l : String) : Option Constr :=
  match matchStr "User-capacity u" l.data with
  | none => none
  | some r1 =>
      match digits1 r1 with
      | none => none
      | some (u, r2) =>
          match matchStr " " r2 with
          | none => none
          | some r3 =>
              match digits1 r3 with
              | none => none
              | some (cap, _) => some (Constr.userCap u cap)

/-- The constraint-line classification chain of `solver_doreen.py`
lines 47-95, in source order; `none` corresponds to the final
`raise Exception(f"Cannot parse line => {l}")`. -/
def dClassify (l : String) : Option Constr :=
  (((((dMatchAuth l).orElse fun _ => dMatchSod l).orElse fun _ =>
      dMatchBod l).orElse fun _ => dMatchAmk l).orElse fun _ =>
      dMatchOneTeam l).orElse fun _ => dMatchUcap l

/-- The constraint-reading loop of `parse_file`
(`for _ in range(instance.number_of_constraints)`): reads exactly `K`
lines starting at index `idx` (`readline` past the end of file yields
`""`), strips each, classifies it and applies it to the instance;
an unclassifiable line aborts with the exception message. -/
def dReadConstraints : ℕ → ℕ → List String → DInstance → Except String DInstance
  | 0, _, _, inst => Except.ok inst
  | K + 1, idx, lines, inst =>
      match dClassify (pyStrip (lines.getD idx "")) with
      | none => Except.error ("Cannot parse line => " ++ pyStrip (lines.getD idx ""))
      | some c => dReadConstraints K (idx + 1) lines (dApplyConstr inst c)

/-- `parse_file` of `solver_doreen.py` (lines 29-98) over the file's
lines (modelled without trailing newlines): three header attributes,
then exactly `#Constraints` constraint lines. -/
def dParseFile (lines : List String) : Except String DInstance :=
  match readAttribute "#Steps" (lines.getD 0 "") with
  | none => Except.error ("Failed parse line " ++ lines.getD 0 "" ++ ", expected #Steps")
  | some N =>
      match readAttribute "#Users" (lines.getD 1 "") with
      | none => Except.error ("Failed parse line " ++ lines.getD 1 "" ++ ", expected #Users")
      | some M =>
          match readAttribute "#Constraints" (lines.getD 2 "") with
          | none =>
              Except.error ("Failed parse line " ++ lines.getD 2 "" ++ ", expected #Constraints")
          | some K =>
              dReadConstraints K 3 lines
                { number_of_steps := N, number_of_users := M, number_of_constraints := K,
                  auth := List.replicate M [], SOD := [], BOD := [], at_most_k := [],
                  one_team := [], user_capacity := [] }

/-- `int(line.split(': ')[1])` used for the three header lines of
`parse_file` in `solver_combinatorial.py` (lines 12-14) and
`solver_symmetry.py`. -/
def parseHeaderInt (line : String) : Option ℤ :=
  match (headerSplitAux line.data []).get? 1 with
  | none => none
  | some piece => pyInt ⟨piece⟩

/-- The `lines[3:]` loop of `parse_file` in `solver_combinatorial.py`
(lines 18-26): strip each line; `User-capacity`-prefixed lines are parsed
into `(user, capacity)` pairs, every other line is kept verbatim as a
constraint string.  `int()` failures and missing tokens abort with the
Python exception. -/
def combParseTail : List String → Except String (List String × List (ℤ × ℤ))
  | [] => Except.ok ([], [])
  | rawLine :: rest =>
      if pyStartsWith "User-capacity" (pyStrip rawLine) then
        match (pySplit (pyStrip rawLine)).get? 1, (pySplit (pyStrip rawLine)).get? 2 with
        | some p1, some p2 =>
            match pyInt (p1.drop 1), pyInt p2 with
            | some u, some cap =>
                (combParseTail rest).map fun p => (p.1, (u, cap) :: p.2)
            | _, _ => Except.error "ValueError: invalid literal for int()"
        | _, _ => Except.error "IndexError: list index out of range"
      else
        (combParseTail rest).map fun p => (pyStrip rawLine :: p.1, p.2)

/-- Result of `parse_file` in `solver_combinatorial.py` (line 28):
`steps_count, users_count, constraints, user_capacity_constraints`.
The `#Constraints` header is parsed (an unparsable one raises) but its
value is dropped. -/
def combParseFile (lines : List String) :
    Except String (ℤ × ℤ × List String × List (ℤ × ℤ)) :=
  match lines.get? 0 with
  | none => Except.error "IndexError: list index out of range"
  | some l0 =>
      match parseHeaderInt l0 with
      | none => Except.error "ValueError: invalid literal for int()"
      | some sc =>
          match lines.get? 1 with
          | none => Except.error "IndexError: list index out of range"
          | some l1 =>
              match parseHeaderInt l1 with
              | none => Except.error "ValueError: invalid literal for int()"
              | some uc =>
                  match lines.get? 2 with
                  | none => Except.error "IndexError: list index out of range"
                  | some l2 =>
                      match parseHeaderInt l2 with
                      | none => Except.error "ValueError: invalid literal for int()"
                      | some _ =>
                          (combParseTail (lines.drop 3)).map fun p =>
                            (sc, uc, p.1, p.2)

/-- The per-line dispatch of `Solver` in `solver_combinatorial.py`
(lines 45-123) on `parts = constraint.split()`: the five recognised
keywords build a tagged constraint (identifier tokens parsed with
`int(tok[1:])`, clamped to ℕ — Python's negative-identifier aliasing is
outside the modelled fragment); a `One-team` line whose steps or teams
parse empty is skipped with a warning; any other keyword matches no
branch and the line is silently skipped (`Except.ok none`).  Python
exceptions (`IndexError` from `parts[i]`, `ValueError` from `int`) are
`Except.error`. -/
def combDispatch (line : String) : Except String (Option Constr) :=
  match pySplit line with
  | [] => Except.error "IndexError: list index out of range"
  | p0 :: restParts =>
      if p0 = "Authorisations" then
        match restParts with
        | [] => Except.error "IndexError: list index out of range"
        | p1 :: stepToks =>
            match pyInt (p1.drop 1),
                stepToks.mapM (fun t => pyInt (t.drop 1)) with
            | some u, some steps =>
                Except.ok (some (Constr.auth u.toNat (steps.map Int.toNat)))
            | _, _ => Except.error "ValueError: invalid literal for int()"
      else if p0 = "Separation-of-duty" then
        match restParts.get? 0, restParts.get? 1 with
        | some p1, some p2 =>
            match pyInt (p1.drop 1), pyInt (p2.drop 1) with
            | some s1, some s2 => Except.ok (some (Constr.sod s1.toNat s2.toNat))
            | _, _ => Except.error "ValueError: invalid literal for int()"
        | _, _ => Except.error "IndexError: list index out of range"
      else if p0 = "Binding-of-duty" then
        match restParts.get? 0, restParts.get? 1 with
        | some p1, some p2 =>
            match pyInt (p1.drop 1), pyInt (p2.drop 1) with
            | some s1, some s2 => Except.ok (some (Constr.bod s1.toNat s2.toNat))
            | _, _ => Except.error "ValueError: invalid literal for int()"
        | _, _ => Except.error "IndexError: list index out of range"
      else if p0 = "At-most-k" then
        match restParts with
        | [] => Except.error "IndexError: list index out of range"
        | p1 :: stepToks =>
            match pyInt p1, stepToks.mapM (fun t => pyInt (t.drop 1)) with
            | some k, some steps =>
                Except.ok (some (Constr.amk k.toNat (steps.map Int.toNat)))
            | _, _ => Except.error "ValueError: invalid literal for int()"
      else if p0 = "One-team" then
        match findNums 's' line, combFindTeams line.data with
        | [], _ => Except.ok none
        | _, [] => Except.ok none
        | steps, teams => Except.ok (some (Constr.oneTeam steps teams))
      else
        Except.ok none

/-- The dispatch loop over all kept constraint strings: recognised lines
are collected in order, skipped lines contribute nothing, the first
exception aborts. -/
def combDispatchAll : List String → Except String (List Constr)
  | [] => Except.ok []
  | l :: rest =>
      match combDispatch l with
      | Except.error e => Except.error e
      | Except.ok none => combDispatchAll rest
      | Except.ok (some c) => (combDispatchAll rest).map fun cs => c :: cs

/-- The front end of `Solver` in `solver_combinatorial.py`: parse the
file, then dispatch every kept constraint string, producing the data the
model is compiled from (steps count, users count, tagged constraints,
user-capacity pairs). -/
def combCompile (lines : List String) :
    Except String (ℤ × ℤ × List Constr × List (ℤ × ℤ)) :=
  match combParseFile lines with
  | Except.error e => Except.error e
  | Except.ok p =>
      match combDispatchAll p.2.2.1 with
      | Except.error e => Except.error e
      | Except.ok cs => Except.ok (p.1, p.2.1, cs, p.2.2.2)

/-- Scan a step list keeping only steps whose assigned user was not kept
before (proof device for the pigeonhole argument on the direct At-most-k
encoding). -/
def pickRepsAux (a : ℕ → ℕ) (seen : List ℕ) : List ℕ → List ℕ
  | [] => []
  | s :: rest =>
      if a s ∈ seen then pickRepsAux a seen rest
      else s :: pickRepsAux a (a s :: seen) rest

/-- Every `Authorisations` entry names a positive (1-based) user
identifier; entries `u0` would alias Python's negative indexing and are
outside the modelled fragment. -/
def authUserPos : Constr → Bool
  | Constr.auth v _ => decide (1 ≤ v)
  | _ => true

/-- An At-most-k constraint's bound does not exceed the users count. -/
def amkBounded (M : ℕ) : Constr → Bool
  | Constr.amk k _ => decide (k ≤ M)
  | _ => true

/-- An At-most-k constraint's steps all lie in `1..N` (Python would raise
`IndexError` on an out-of-range step variable index). -/
def amkStepsWF (N : ℕ) : Constr → Bool
  | Constr.amk _ S => S.all fun s => decide (1 ≤ s ∧ s ≤ N)
  | _ => true

/-- Test for a `User-capacity` constraint (handled by
`solver_combinatorial.py` but silently ignored by
`solver_symmetry.py`). -/
def isUserCapC : Constr → Bool
  | Constr.userCap _ _ => true
  | _ => false

/-- The `one_team` record `parse_file` of `solver_doreen.py` appends for
a One-team constraint (0-based steps and users). -/
def dOneTeamEntry : Constr → Option (List ℕ × List (List ℕ))
  | Constr.oneTeam S teams => some (S.map (· - 1), teams.map (List.map (· - 1)))
  | _ => none

/-! ## At-most-k encoding lemmas -/

theorem mem_stepRange {N s : ℕ} : s ∈ stepRange N ↔ 1 ≤ s ∧ s ≤ N := by
  rw [stepRange, List.mem_range'_1]
  omega

/-- The `k < len(steps)` guard is only an optimisation: without it the
posted combination constraints are vacuous anyway. -/
theorem atMostKDirect_iff_forall (k : ℕ) (S : List ℕ) (a : ℕ → ℕ) :
    atMostKDirectSat k S a ↔
      ∀ combo ∈ List.sublistsLen (k + 1) S, ¬ combo.Pairwise (fun i j => a i ≠ a j) := by
  constructor
  · intro h combo hc
    by_cases hk : k < S.length
    · exact h hk combo hc
    · rw [List.sublistsLen_of_length_lt (by omega)] at hc
      simp at hc
  · intro h _
    exact h

theorem pickRepsAux_sublist (a : ℕ → ℕ) :
    ∀ (l : List ℕ) (seen : List ℕ), List.Sublist (pickRepsAux a seen l) l := by
  intro l
  induction l with
  | nil => intro seen; simp [pickRepsAux]
  | cons s rest ih =>
      intro seen
      rw [pickRepsAux]
      split
      · exact (ih seen).trans (List.sublist_cons_self s rest)
      · exact (ih (a s :: seen)).cons₂ s

theorem pickRepsAux_nodup_disjoint (a : ℕ → ℕ) :
    ∀ (l : List ℕ) (seen : List ℕ),
      ((pickRepsAux a seen l).map a).Nodup ∧
        ∀ v ∈ (pickRepsAux a seen l).map a, v ∉ seen := by
  intro l
  induction l with
  | nil => intro seen; simp [pickRepsAux]
  | cons s rest ih =>
      intro seen
      rw [pickRepsAux]
      split
      · exact ih seen
      · rename_i hns
        obtain ⟨hnd, hdisj⟩ := ih (a s :: seen)
        refine ⟨?_, ?_⟩
        · simp only [List.map_cons, List.nodup_cons]
          exact ⟨fun hmem => (hdisj _ hmem) (List.mem_cons_self _ _), hnd⟩
        · intro v hv
          simp only [List.map_cons, List.mem_cons] at hv
          rcases hv with rfl | hv
          · exact hns
          · exact fun hseen => (hdisj v hv) (List.mem_cons_of_mem _ hseen)

theorem pickRepsAux_image (a : ℕ → ℕ) :
    ∀ (l : List ℕ) (seen : List ℕ) (v : ℕ),
      v ∈ (pickRepsAux a seen l).map a ↔ (v ∈ l.map a ∧ v ∉ seen) := by
  intro l
  induction l with
  | nil => intro seen v; simp [pickRepsAux]
  | cons s rest ih =>
      intro seen v
      rw [pickRepsAux]
      split
      · rename_i hin
        rw [ih seen v]
        simp only [List.map_cons, List.mem_cons]
        constructor
        · rintro ⟨hv, hns⟩
          exact ⟨Or.inr hv, hns⟩
        · rintro ⟨hv | hv, hns⟩
          · exact absurd (hv ▸ hin) hns
          · exact ⟨hv, hns⟩
      · rename_i hnin
        simp only [List.map_cons, List.mem_cons, ih (a s :: seen) v]
        constructor
        · rintro (rfl | ⟨hv, hns⟩)
          · exact ⟨Or.inl rfl, hnin⟩
          · exact ⟨Or.inr hv, fun hc => hns (Or.inr hc)⟩
        · rintro ⟨rfl | hv, hns⟩
          · exact Or.inl rfl
          · by_cases hvs : v = a s
            · exact Or.inl hvs
            · exact Or.inr ⟨hv, fun hor => hor.elim hvs hns⟩

theorem specAtMostK_of_atMostKDirect {k : ℕ} {S : List ℕ} {a : ℕ → ℕ}
    (h : atMostKDirectSat k S a) : specAtMostK k S a := by
  rw [atMostKDirect_iff_forall] at h
  by_contra hcard
  unfold specAtMostK at hcard
  push_neg at hcard
  have hnd := (pickRepsAux_nodup_disjoint a S []).1
  have himg : ((pickRepsAux a [] S).map a).toFinset = (S.map a).toFinset := by
    ext v
    simp only [List.mem_toFinset]
    simpa using pickRepsAux_image a S [] v
  have hlen : (pickRepsAux a [] S).length = ((S.map a).toFinset).card := by
    rw [← himg, List.toFinset_card_of_nodup hnd, List.length_map]
  have hlen2 : k + 1 ≤ (pickRepsAux a [] S).length := by omega
  have hsub : List.Sublist ((pickRepsAux a [] S).take (k + 1)) S :=
    (List.take_sublist _ _).trans (pickRepsAux_sublist a S [])
  have hcombo : (pickRepsAux a [] S).take (k + 1) ∈ List.sublistsLen (k + 1) S :=
    List.mem_sublistsLen.mpr ⟨hsub, by rw [List.length_take]; omega⟩
  apply h _ hcombo
  have hnd2 : (List.map a ((pickRepsAux a [] S).take (k + 1))).Nodup :=
    hnd.sublist ((List.take_sublist _ _).map a)
  exact List.pairwise_map.mp hnd2

theorem atMostKDirect_of_specAtMostK {k : ℕ} {S : List ℕ} {a : ℕ → ℕ}
    (h : specAtMostK k S a) : atMostKDirectSat k S a := by
  intro _ combo hcombo hpw
  obtain ⟨hsub, hlen⟩ := List.mem_sublistsLen.mp hcombo
  have hnd : (combo.map a).Nodup := List.pairwise_map.mpr hpw
  have hsubset : (combo.map a).toFinset ⊆ (S.map a).toFinset := by
    intro v hv
    rw [List.mem_toFinset] at *
    exact (hsub.map a).subset hv
  have hc1 : (combo.map a).toFinset.card = k + 1 := by
    rw [List.toFinset_card_of_nodup hnd, List.length_map, hlen]
  have hc2 := Finset.card_le_card hsubset
  unfold specAtMostK at h
  omega

/-- The direct encoding is exactly the spec's cardinality bound. -/
theorem atMostKDirect_iff_spec (k : ℕ) (S : List ℕ) (a : ℕ → ℕ) :
    atMostKDirectSat k S a ↔ specAtMostK k S a :=
  ⟨specAtMostK_of_atMostKDirect, atMostKDirect_of_specAtMostK⟩

theorem slots_mono {u : ℕ → ℕ} {k : ℕ} (hadj : ∀ i, i + 1 < k → u i < u (i + 1)) :
    ∀ j i, i < j → j < k → u i < u j := by
  intro j
  induction j with
  | zero => intro i hi; omega
  | succ j ih =>
      intro i hij hjk
      rcases Nat.lt_succ_iff_lt_or_eq.mp hij with hlt | rfl
      · exact (ih i hlt (by omega)).trans (hadj j hjk)
      · exact hadj i hjk

theorem specAtMostK_of_atMostKSym {M k : ℕ} {S : List ℕ} {a : ℕ → ℕ}
    (h : atMostKSymSat M k S a) : specAtMostK k S a := by
  obtain ⟨u, hbnd, hadj, hcov⟩ := h
  have hsubset : (S.map a).toFinset ⊆ ((List.range k).map u).toFinset := by
    intro v hv
    rw [List.mem_toFinset, List.mem_map] at *
    obtain ⟨s, hs, rfl⟩ := hv
    obtain ⟨i, hik, hai⟩ := hcov s hs
    exact ⟨i, List.mem_range.mpr hik, hai.symm⟩
  calc (S.map a).toFinset.card ≤ ((List.range k).map u).toFinset.card :=
        Finset.card_le_card hsubset
    _ ≤ ((List.range k).map u).length := List.toFinset_card_le _
    _ = k := by simp

theorem atMostKSym_of_specAtMostK {M k : ℕ} {S : List ℕ} {a : ℕ → ℕ}
    (hkM : k ≤ M) (hbnd : ∀ s ∈ S, 1 ≤ a s ∧ a s ≤ M)
    (h : specAtMostK k S a) : atMostKSymSat M k S a := by
  classical
  have hsub : (S.map a).toFinset ⊆ Finset.Icc 1 M := by
    intro v hv
    rw [List.mem_toFinset, List.mem_map] at hv
    obtain ⟨s, hs, rfl⟩ := hv
    exact Finset.mem_Icc.mpr (hbnd s hs)
  have hIcard : (Finset.Icc 1 M).card = M := by
    rw [Nat.card_Icc]
    omega
  have hcard : (S.map a).toFinset.card ≤ k := h
  obtain ⟨W, hVW, hWI, hWcard⟩ :=
    Finset.exists_subsuperset_card_eq hsub hcard (by rw [hIcard]; exact hkM)
  have hlen : (W.sort (· ≤ ·)).length = k := by
    rw [Finset.length_sort, hWcard]
  have hsorted : List.Sorted (· < ·) (W.sort (· ≤ ·)) := Finset.sort_sorted_lt W
  refine ⟨fun i => (W.sort (· ≤ ·)).getD i 0, ?_, ?_, ?_⟩
  · intro i hik
    have hi : i < (W.sort (· ≤ ·)).length := by omega
    show 1 ≤ (W.sort (· ≤ ·)).getD i 0 ∧ (W.sort (· ≤ ·)).getD i 0 ≤ M
    rw [List.getD_eq_get _ _ hi]
    have hmem : (W.sort (· ≤ ·)).get ⟨i, hi⟩ ∈ W.sort (· ≤ ·) := List.get_mem _ _ _
    have hW : (W.sort (· ≤ ·)).get ⟨i, hi⟩ ∈ W := (Finset.mem_sort _).mp hmem
    exact Finset.mem_Icc.mp (hWI hW)
  · intro i hik
    have hi : i < (W.sort (· ≤ ·)).length := by omega
    have hi1 : i + 1 < (W.sort (· ≤ ·)).length := by omega
    show (W.sort (· ≤ ·)).getD i 0 < (W.sort (· ≤ ·)).getD (i + 1) 0
    rw [List.getD_eq_get _ _ hi, List.getD_eq_get _ _ hi1]
    exact List.pairwise_iff_get.mp hsorted ⟨i, hi⟩ ⟨i + 1, hi1⟩ (by simp)
  · intro s hs
    have hv : a s ∈ W := hVW (List.mem_toFinset.mpr (List.mem_map_of_mem a hs))
    have hvs : a s ∈ W.sort (· ≤ ·) := (Finset.mem_sort _).mpr hv
    obtain ⟨⟨i, hi⟩, hgi⟩ := List.mem_iff_get.mp hvs
    refine ⟨i, by omega, ?_⟩
    show a s = (W.sort (· ≤ ·)).getD i 0
    rw [List.getD_eq_get _ _ hi, ← hgi]

/-- Under `k ≤ usersCount` and in-domain values, the symmetry-reduced
encoding is also exactly the spec's cardinality bound. -/
theorem atMostKSym_iff_spec {M k : ℕ} {S : List ℕ} {a : ℕ → ℕ}
    (hkM : k ≤ M) (hbnd : ∀ s ∈ S, 1 ≤ a s ∧ a s ≤ M) :
    atMostKSymSat M k S a ↔ specAtMostK k S a :=
  ⟨specAtMostK_of_atMostKSym, atMostKSym_of_specAtMostK hkM hbnd⟩


/-! ## One-team encoding lemmas -/

theorem mem_listPow (team : List ℕ) :
    ∀ (m : ℕ) (l : List ℕ),
      l ∈ listPow team m ↔ (l.length = m ∧ ∀ x ∈ l, x ∈ team) := by
  intro m
  induction m with
  | zero =>
      intro l
      simp only [listPow, List.mem_singleton]
      constructor
      · rintro rfl; simp
      · rintro ⟨hlen, _⟩
        exact List.length_eq_zero.mp hlen
  | succ m ih =>
      intro l
      simp only [listPow, List.mem_flatMap, List.mem_map]
      constructor
      · rintro ⟨x, hx, l2, hl2, rfl⟩
        obtain ⟨hlen, hall⟩ := (ih l2).mp hl2
        refine ⟨by simp [hlen], ?_⟩
        intro y hy
        rcases List.mem_cons.mp hy with rfl | hy
        · exact hx
        · exact hall y hy
      · rintro ⟨hlen, hall⟩
        cases l with
        | nil => simp at hlen
        | cons y l2 =>
            refine ⟨y, hall y (List.mem_cons_self _ _), l2, (ih l2).mpr ⟨?_, ?_⟩, rfl⟩
            · simpa using hlen
            · exact fun x hx => hall x (List.mem_cons_of_mem _ hx)

theorem mem_allowedCombinations (teams : List (List ℕ)) (m : ℕ) (tup : List ℕ) :
    tup ∈ allowedCombinations teams m ↔
      ∃ t ∈ teams, tup.length = m ∧ ∀ x ∈ tup, x ∈ t := by
  simp only [allowedCombinations, List.mem_flatMap]
  constructor
  · rintro ⟨t, ht, htup⟩
    obtain ⟨hlen, hall⟩ := (mem_listPow t m tup).mp htup
    exact ⟨t, ht, hlen, hall⟩
  · rintro ⟨t, ht, hlen, hall⟩
    exact ⟨t, ht, (mem_listPow t m tup).mpr ⟨hlen, hall⟩⟩

/-- The direct allowed-tuple table realises exactly the "one single team
covers all steps of S" property. -/
theorem oneTeamDirect_iff (S : List ℕ) (teams : List (List ℕ)) (a : ℕ → ℕ)
    (hS : S ≠ []) (ht : teams ≠ []) :
    oneTeamDirectSat S teams a ↔ ∃ t ∈ teams, ∀ s ∈ S, a s ∈ t := by
  unfold oneTeamDirectSat
  constructor
  · intro h
    obtain ⟨t, htm, _, hall⟩ := (mem_allowedCombinations teams S.length (S.map a)).mp (h hS ht)
    refine ⟨t, htm, fun s hs => hall (a s) (List.mem_map_of_mem a hs)⟩
  · rintro ⟨t, htm, hcov⟩ _ _
    refine (mem_allowedCombinations teams S.length (S.map a)).mpr
      ⟨t, htm, by simp, ?_⟩
    intro x hx
    obtain ⟨s, hs, rfl⟩ := List.mem_map.mp hx
    exact hcov s hs

/-- The symmetry-reduced selector encoding (with its redundant pairwise
disjoint-team exclusions) projects on the assignment to the per-constraint
"some team covers the steps" property. -/
theorem symOneTeamGlobal_iff (otcs : List (List ℕ × List (List ℕ))) (a : ℕ → ℕ) :
    symOneTeamGlobal otcs a ↔
      ∀ p ∈ otcs, ∃ i, i < p.2.length ∧ ∀ s ∈ p.1, a s ∈ p.2.getD i [] := by
  constructor
  · rintro ⟨sel, hsel, _⟩ p hp
    obtain ⟨⟨j, hj⟩, rfl⟩ := List.mem_iff_get.mp hp
    exact ⟨sel j, (hsel j hj).1, (hsel j hj).2⟩
  · intro h
    classical
    have hch : ∀ j : Fin otcs.length,
        ∃ i, i < (otcs.get j).2.length ∧ ∀ s ∈ (otcs.get j).1, a s ∈ (otcs.get j).2.getD i [] :=
      fun j => h (otcs.get j) (otcs.get_mem j j.isLt)
    choose f hf1 hf2 using hch
    refine ⟨fun j => if hj : j < otcs.length then f ⟨j, hj⟩ else 0, ?_, ?_⟩
    · intro j hj
      simp only [dif_pos hj]
      exact ⟨hf1 ⟨j, hj⟩, hf2 ⟨j, hj⟩⟩
    · intro j1 j2 hj1 hj2 hne s hs1 hs2 t1i ht1i t2i ht2i hdisj hcontra
      obtain ⟨hc1, hc2⟩ := hcontra
      simp only [dif_pos hj1] at hc1
      simp only [dif_pos hj2] at hc2
      have hm1 : a s ∈ (otcs.get ⟨j1, hj1⟩).2.getD (f ⟨j1, hj1⟩) [] := hf2 ⟨j1, hj1⟩ s hs1
      have hm2 : a s ∈ (otcs.get ⟨j2, hj2⟩).2.getD (f ⟨j2, hj2⟩) [] := hf2 ⟨j2, hj2⟩ s hs2
      rw [hc1] at hm1
      rw [hc2] at hm2
      exact hdisj (a s) hm1 hm2

theorem mem_oneTeamData (cs : List Constr) (S : List ℕ) (teams : List (List ℕ)) :
    (S, teams) ∈ oneTeamData cs ↔
      (Constr.oneTeam S teams ∈ cs ∧ S ≠ [] ∧ teams ≠ []) := by
  simp only [oneTeamData, List.mem_filterMap]
  constructor
  · rintro ⟨c, hc, hsome⟩
    cases c with
    | oneTeam S2 teams2 =>
        dsimp only at hsome
        by_cases hg : S2 ≠ [] ∧ teams2 ≠ []
        · rw [if_pos hg] at hsome
          injection hsome with hpair
          obtain ⟨h1, h2⟩ := Prod.mk.injEq .. ▸ hpair
          subst h1
          subst h2
          exact ⟨hc, hg⟩
        · rw [if_neg hg] at hsome
          exact Option.noConfusion hsome
    | auth u al => exact Option.noConfusion hsome
    | sod s1 s2 => exact Option.noConfusion hsome
    | bod s1 s2 => exact Option.noConfusion hsome
    | amk k St => exact Option.noConfusion hsome
    | userCap u cap => exact Option.noConfusion hsome
  · rintro ⟨hc, hg⟩
    refine ⟨Constr.oneTeam S teams, hc, ?_⟩
    dsimp only
    rw [if_pos hg]

/-! ## First-wins policy and strategy-equivalence lemmas -/

theorem getD_mem_of_lt (teams : List (List ℕ)) (i : ℕ) (hi : i < teams.length) :
    teams.getD i [] ∈ teams := by
  rw [List.getD_eq_get _ _ hi]
  exact List.get_mem _ _ _

theorem exists_getD_eq_of_mem (teams : List (List ℕ)) (t : List ℕ) (ht : t ∈ teams) :
    ∃ i, i < teams.length ∧ teams.getD i [] = t := by
  obtain ⟨⟨i, hi⟩, hgt⟩ := List.mem_iff_get.mp ht
  exact ⟨i, hi, by rw [List.getD_eq_get _ _ hi, hgt]⟩

theorem dedupAuthAux_sublist :
    ∀ (cs : List Constr) (seen : List ℕ), List.Sublist (dedupAuthAux seen cs) cs := by
  intro cs
  induction cs with
  | nil => intro seen; simp [dedupAuthAux]
  | cons c rest ih =>
      intro seen
      cases c with
      | auth u al =>
          rw [dedupAuthAux]
          split
          · exact (ih seen).trans (List.sublist_cons_self _ _)
          · exact (ih (u :: seen)).cons₂ _
      | sod s1 s2 => exact (ih seen).cons₂ _
      | bod s1 s2 => exact (ih seen).cons₂ _
      | amk k S => exact (ih seen).cons₂ _
      | oneTeam S teams => exact (ih seen).cons₂ _
      | userCap u cap => exact (ih seen).cons₂ _

theorem firstWinsAuthAux_dedupAux :
    ∀ (cs : List Constr) (seen : List ℕ),
      firstWinsAuthAux seen (dedupAuthAux seen cs) = firstWinsAuthAux seen cs := by
  intro cs
  induction cs with
  | nil => intro seen; rfl
  | cons c rest ih =>
      intro seen
      cases c with
      | auth u al =>
          by_cases hin : u ∈ seen
          · show firstWinsAuthAux seen
                (if u ∈ seen then dedupAuthAux seen rest
                 else Constr.auth u al :: dedupAuthAux (u :: seen) rest) =
              firstWinsAuthAux seen (Constr.auth u al :: rest)
            rw [if_pos hin, ih seen]
            simp only [firstWinsAuthAux, if_pos hin]
          · show firstWinsAuthAux seen
                (if u ∈ seen then dedupAuthAux seen rest
                 else Constr.auth u al :: dedupAuthAux (u :: seen) rest) =
              firstWinsAuthAux seen (Constr.auth u al :: rest)
            rw [if_neg hin]
            simp only [firstWinsAuthAux, if_neg hin, ih (u :: seen)]
      | sod s1 s2 => exact ih seen
      | bod s1 s2 => exact ih seen
      | amk k S => exact ih seen
      | oneTeam S teams => exact ih seen
      | userCap u cap => exact ih seen

theorem mem_dedupAuthAux_nonauth :
    ∀ (cs : List Constr) (seen : List ℕ) (c : Constr),
      (∀ u al, c ≠ Constr.auth u al) → (c ∈ dedupAuthAux seen cs ↔ c ∈ cs) := by
  intro cs
  induction cs with
  | nil => intro seen c _; rfl
  | cons c0 rest ih =>
      intro seen c hna
      cases c0 with
      | auth u al =>
          rw [dedupAuthAux]
          split
          · rw [ih seen c hna]
            simp only [List.mem_cons]
            constructor
            · exact Or.inr
            · rintro (rfl | h)
              · exact absurd rfl (hna u al)
              · exact h
          · simp only [List.mem_cons, ih (u :: seen) c hna]
      | sod s1 s2 => simp only [dedupAuthAux, List.mem_cons, ih seen c hna]
      | bod s1 s2 => simp only [dedupAuthAux, List.mem_cons, ih seen c hna]
      | amk k S => simp only [dedupAuthAux, List.mem_cons, ih seen c hna]
      | oneTeam S teams => simp only [dedupAuthAux, List.mem_cons, ih seen c hna]
      | userCap u cap => simp only [dedupAuthAux, List.mem_cons, ih seen c hna]

/-- The first-wins duplicate policy of the direct-strategy solver:
compiling a constraint list yields the same model as compiling the list
with every later duplicate `Authorisations` entry removed. -/
theorem combSat_dedupAuth (N M : ℕ) (cs : List Constr) (a : ℕ → ℕ) :
    combSat N M cs a ↔ combSat N M (dedupAuth cs) a := by
  unfold combSat authClause firstWinsAuth dedupAuth
  rw [firstWinsAuthAux_dedupAux]
  constructor
  · rintro ⟨hdom, hauth, hc3⟩
    exact ⟨hdom, hauth, fun c hc =>
      hc3 c ((dedupAuthAux_sublist cs []).subset hc)⟩
  · rintro ⟨hdom, hauth, hc3⟩
    refine ⟨hdom, hauth, fun c hc => ?_⟩
    cases c with
    | auth u al => trivial
    | sod s1 s2 =>
        exact hc3 _ ((mem_dedupAuthAux_nonauth cs [] _ (fun _ _ h => Constr.noConfusion h)).mpr hc)
    | bod s1 s2 =>
        exact hc3 _ ((mem_dedupAuthAux_nonauth cs [] _ (fun _ _ h => Constr.noConfusion h)).mpr hc)
    | amk k S =>
        exact hc3 _ ((mem_dedupAuthAux_nonauth cs [] _ (fun _ _ h => Constr.noConfusion h)).mpr hc)
    | oneTeam S teams =>
        exact hc3 _ ((mem_dedupAuthAux_nonauth cs [] _ (fun _ _ h => Constr.noConfusion h)).mpr hc)
    | userCap u cap =>
        exact hc3 _ ((mem_dedupAuthAux_nonauth cs [] _ (fun _ _ h => Constr.noConfusion h)).mpr hc)

/-- Per-assignment equivalence of the two strategies' compiled models,
under the conditions the symmetry solver needs: every At-most-k bound is
at most the users count (its slot chain is otherwise unsatisfiable), its
steps are in range, and no User-capacity constraint occurs (the symmetry
solver silently ignores those). -/
theorem combSat_iff_symSat (N M : ℕ) (cs : List Constr) (a : ℕ → ℕ)
    (hWF : ∀ c ∈ cs, amkStepsWF N c = true)
    (hB : ∀ c ∈ cs, amkBounded M c = true)
    (hNC : ∀ c ∈ cs, isUserCapC c = false) :
    combSat N M cs a ↔ symSat N M cs a := by
  unfold combSat symSat
  constructor
  · rintro ⟨hdom, hauth, hc3⟩
    refine ⟨hdom, hauth, ?_, ?_⟩
    · intro c hc
      cases c with
      | sod s1 s2 => exact hc3 _ hc
      | bod s1 s2 => exact hc3 _ hc
      | amk k S =>
          have hspec : specAtMostK k S a := specAtMostK_of_atMostKDirect (hc3 _ hc)
          have hkM : k ≤ M := by
            have := hB _ hc
            simpa [amkBounded] using this
          refine atMostKSym_of_specAtMostK hkM ?_ hspec
          intro s hs
          have hw := hWF _ hc
          simp only [amkStepsWF, List.all_eq_true, decide_eq_true_eq] at hw
          exact hdom s (mem_stepRange.mpr (hw s hs))
      | auth u al => trivial
      | oneTeam S teams => trivial
      | userCap u cap => trivial
    · rw [symOneTeamGlobal_iff]
      rintro ⟨S, teams⟩ hp
      obtain ⟨hmem, hS, ht⟩ := (mem_oneTeamData cs S teams).mp hp
      obtain ⟨t, htm, hcov⟩ := (oneTeamDirect_iff S teams a hS ht).mp (hc3 _ hmem)
      obtain ⟨i, hi, hgd⟩ := exists_getD_eq_of_mem teams t htm
      exact ⟨i, hi, fun s hs => by rw [hgd]; exact hcov s hs⟩
  · rintro ⟨hdom, hauth, hc3, hot⟩
    refine ⟨hdom, hauth, ?_⟩
    intro c hc
    cases c with
    | sod s1 s2 => exact hc3 _ hc
    | bod s1 s2 => exact hc3 _ hc
    | auth u al => trivial
    | userCap u cap =>
        have := hNC _ hc
        simp [isUserCapC] at this
    | amk k S =>
        exact atMostKDirect_of_specAtMostK (specAtMostK_of_atMostKSym (hc3 _ hc))
    | oneTeam S teams =>
        intro hS ht
        have hp : (S, teams) ∈ oneTeamData cs := (mem_oneTeamData cs S teams).mpr ⟨hc, hS, ht⟩
        obtain ⟨i, hi, hcov⟩ := (symOneTeamGlobal_iff (oneTeamData cs) a).mp hot _ hp
        exact (oneTeamDirect_iff S teams a hS ht).mpr
          ⟨teams.getD i [], getD_mem_of_lt teams i hi, hcov⟩ hS ht

/-! ## Multi-solution enumeration lemmas -/

theorem foldl_callbackStep_stopped {α : Type} (limit : ℕ) :
    ∀ (sols : List α) (st : EnumState α), st.stopped = true →
      sols.foldl (callbackStep limit) st = st := by
  intro sols
  induction sols with
  | nil => intro st _; rfl
  | cons x rest ih =>
      intro st hst
      rw [List.foldl_cons, callbackStep, if_pos hst]
      exact ih st hst

theorem foldl_callbackStep_run {α : Type} (limit : ℕ) :
    ∀ (sols : List α) (c : ℕ) (f : List α), c ≤ limit →
      sols.foldl (callbackStep limit) { count := c, found := f, stopped := false } =
        if sols.length + c ≤ limit then
          { count := c + sols.length, found := f ++ sols, stopped := false }
        else
          { count := limit, found := f ++ sols.take (limit - c), stopped := true } := by
  intro sols
  induction sols with
  | nil =>
      intro c f hc
      rw [List.foldl_nil, if_pos (by simpa using hc)]
      simp
  | cons x rest ih =>
      intro c f hc
      rw [List.foldl_cons]
      by_cases hlim : limit ≤ c
      · have hceq : c = limit := le_antisymm hc hlim
        rw [callbackStep]
        rw [if_neg (by simp), if_pos hlim]
        rw [foldl_callbackStep_stopped limit rest _ rfl]
        rw [if_neg (by simp only [List.length_cons]; omega)]
        subst hceq
        simp
      · push_neg at hlim
        rw [callbackStep]
        rw [if_neg (by simp), if_neg (by dsimp only; omega)]
        rw [ih (c + 1) (f ++ [x]) (by omega)]
        by_cases hrest : rest.length + (c + 1) ≤ limit
        · rw [if_pos hrest, if_pos (by simp only [List.length_cons]; omega)]
          simp only [List.append_assoc, List.singleton_append, List.length_cons,
            EnumState.mk.injEq, and_true, true_and]
          omega
        · rw [if_neg hrest, if_neg (by simp only [List.length_cons]; omega)]
          simp only [List.append_assoc, List.singleton_append]
          have htake : x :: rest.take (limit - (c + 1)) = (x :: rest).take (limit - c) := by
            have : limit - c = (limit - (c + 1)) + 1 := by omega
            rw [this, List.take_succ_cons]
          rw [htake]

/-- The enumeration callback records exactly the first `limit` solutions
and signals `StopSearch` exactly when more exist. -/
theorem runEnum_spec {α : Type} (limit : ℕ) (sols : List α) :
    (runEnum limit sols).found = sols.take limit ∧
      ((runEnum limit sols).stopped = true ↔ limit < sols.length) := by
  unfold runEnum
  rw [foldl_callbackStep_run limit sols 0 [] (Nat.zero_le _)]
  by_cases h : sols.length + 0 ≤ limit
  · rw [if_pos h]
    refine ⟨?_, by simp; omega⟩
    simp only [List.nil_append]
    rw [List.take_of_length_le (by omega)]
  · rw [if_neg h]
    refine ⟨by simp, by simp; omega⟩

/-! ## Doreen parser accumulation lemmas -/

theorem dApplyConstr_auth_length (inst : DInstance) (c : Constr) :
    ((dApplyConstr inst c).auth).length = inst.auth.length := by
  cases c with
  | auth u al => simp [dApplyConstr]
  | sod s1 s2 => rfl
  | bod s1 s2 => rfl
  | amk k S => rfl
  | oneTeam S teams => rfl
  | userCap u cap => rfl

theorem foldl_dApplyConstr_auth_length :
    ∀ (cs : List Constr) (inst : DInstance),
      ((cs.foldl dApplyConstr inst).auth).length = inst.auth.length := by
  intro cs
  induction cs with
  | nil => intro inst; rfl
  | cons c rest ih =>
      intro inst
      rw [List.foldl_cons, ih, dApplyConstr_auth_length]

theorem authListsFor_cons_auth (u v : ℕ) (al : List ℕ) (cs : List Constr) :
    authListsFor u (Constr.auth v al :: cs) =
      if v = u then al :: authListsFor u cs else authListsFor u cs := by
  by_cases h : v = u
  · simp [authListsFor, List.filterMap_cons, h]
  · simp [authListsFor, List.filterMap_cons, h]

/-- How `parse_file` of `solver_doreen.py` accumulates `Authorisations`
entries: a user's final list is the concatenation of the recorded step
lists of all of that user's entries, in file order. -/
theorem foldl_dApplyConstr_auth :
    ∀ (cs : List Constr) (inst : DInstance) (u : ℕ), 1 ≤ u →
      u - 1 < inst.auth.length →
      (∀ c ∈ cs, authUserPos c = true) →
      ((cs.foldl dApplyConstr inst).auth).getD (u - 1) [] =
        inst.auth.getD (u - 1) [] ++ ((authListsFor u cs).map dAuthSteps).flatten := by
  intro cs
  induction cs with
  | nil => intro inst u hu hlen _; simp [authListsFor]
  | cons c rest ih =>
      intro inst u hu hlen hpos
      rw [List.foldl_cons]
      have hposrest : ∀ c2 ∈ rest, authUserPos c2 = true :=
        fun c2 hc2 => hpos c2 (List.mem_cons_of_mem _ hc2)
      cases c with
      | auth v al =>
          have hv : 1 ≤ v := by
            have := hpos _ (List.mem_cons_self _ _)
            simpa [authUserPos] using this
          rw [authListsFor_cons_auth]
          by_cases hvu : v = u
          · subst hvu
            rw [if_pos rfl]
            have hset : ((dApplyConstr inst (Constr.auth v al)).auth).getD (v - 1) [] =
                inst.auth.getD (v - 1) [] ++ dAuthSteps al := by
              show ((inst.auth.set (v - 1)
                  ((inst.auth.getD (v - 1) []) ++ dAuthSteps al))).getD (v - 1) [] = _
              rw [List.getD_eq_getElem?_getD, List.getElem?_set_eq (by simpa using hlen)]
              rfl
            rw [ih _ v hv (by simpa [dApplyConstr_auth_length] using hlen) hposrest, hset]
            simp [List.append_assoc]
          · rw [if_neg hvu]
            have hset : ((dApplyConstr inst (Constr.auth v al)).auth).getD (u - 1) [] =
                inst.auth.getD (u - 1) [] := by
              show ((inst.auth.set (v - 1) _)).getD (u - 1) [] = _
              rw [List.getD_eq_getElem?_getD, List.getElem?_set_ne (by omega),
                ← List.getD_eq_getElem?_getD]
            rw [ih _ u hu (by simpa [dApplyConstr_auth_length] using hlen) hposrest, hset]
      | sod s1 s2 =>
          exact ih _ u hu hlen hposrest
      | bod s1 s2 =>
          exact ih _ u hu hlen hposrest
      | amk k S =>
          exact ih _ u hu hlen hposrest
      | oneTeam S teams =>
          exact ih _ u hu hlen hposrest
      | userCap v cap =>
          exact ih _ u hu hlen hposrest

/-- `parse_file` appends One-team records in order. -/
theorem foldl_dApplyConstr_one_team :
    ∀ (cs : List Constr) (inst : DInstance),
      (cs.foldl dApplyConstr inst).one_team =
        inst.one_team ++ cs.filterMap dOneTeamEntry := by
  intro cs
  induction cs with
  | nil => intro inst; simp
  | cons c rest ih =>
      intro inst
      rw [List.foldl_cons, ih]
      cases c with
      | auth u al => simp [dApplyConstr, dOneTeamEntry, List.filterMap_cons]
      | sod s1 s2 => simp [dApplyConstr, dOneTeamEntry, List.filterMap_cons]
      | bod s1 s2 => simp [dApplyConstr, dOneTeamEntry, List.filterMap_cons]
      | amk k S => simp [dApplyConstr, dOneTeamEntry, List.filterMap_cons]
      | oneTeam S teams => simp [dApplyConstr, dOneTeamEntry, List.filterMap_cons]
      | userCap u cap => simp [dApplyConstr, dOneTeamEntry, List.filterMap_cons]

theorem dParse_auth_getD (N M : ℕ) (cs : List Constr) (u : ℕ)
    (hu : 1 ≤ u) (huM : u ≤ M) (hpos : ∀ c ∈ cs, authUserPos c = true) :
    ((dParse N M cs).auth).getD (u - 1) [] =
      ((authListsFor u cs).map dAuthSteps).flatten := by
  unfold dParse
  rw [foldl_dApplyConstr_auth cs _ u hu (by simp; omega) hpos]
  simp

theorem dParse_one_team (N M : ℕ) (cs : List Constr) :
    (dParse N M cs).one_team = cs.filterMap dOneTeamEntry := by
  unfold dParse
  rw [foldl_dApplyConstr_one_team]
  rfl

theorem dParse_steps (N M : ℕ) (cs : List Constr) :
    (dParse N M cs).number_of_steps = N ∧ (dParse N M cs).number_of_users = M := by
  unfold dParse
  suffices h : ∀ (l : List Constr) (inst : DInstance),
      (l.foldl dApplyConstr inst).number_of_steps = inst.number_of_steps ∧
      (l.foldl dApplyConstr inst).number_of_users = inst.number_of_users by
    exact h cs _
  intro l
  induction l with
  | nil => intro inst; exact ⟨rfl, rfl⟩
  | cons c rest ih =>
      intro inst
      rw [List.foldl_cons]
      obtain ⟨h1, h2⟩ := ih (dApplyConstr inst c)
      refine ⟨h1.trans ?_, h2.trans ?_⟩ <;> cases c <;> rfl

/-! ## Parser error/skip lemmas -/

/-- If, within the declared constraint count, some line fails every
classification (all earlier ones succeeding), the doreen constraint loop
aborts with the parse exception. -/
theorem dReadConstraints_error :
    ∀ (i K idx : ℕ) (lines : List String) (inst : DInstance), i < K →
      (∀ j, j < i → dClassify (pyStrip (lines.getD (idx + j) "")) ≠ none) →
      dClassify (pyStrip (lines.getD (idx + i) "")) = none →
      ∃ msg, dReadConstraints K idx lines inst = Except.error msg := by
  intro i
  induction i with
  | zero =>
      intro K idx lines inst hK _ hfail
      obtain ⟨K2, rfl⟩ : ∃ K2, K = K2 + 1 := ⟨K - 1, by omega⟩
      rw [dReadConstraints]
      rw [show idx + 0 = idx from rfl] at hfail
      rw [hfail]
      exact ⟨_, rfl⟩
  | succ i ih =>
      intro K idx lines inst hK hprev hfail
      obtain ⟨K2, rfl⟩ : ∃ K2, K = K2 + 1 := ⟨K - 1, by omega⟩
      rw [dReadConstraints]
      have h0 : dClassify (pyStrip (lines.getD (idx + 0) "")) ≠ none := hprev 0 (by omega)
      match hcl : dClassify (pyStrip (lines.getD idx "")) with
      | none => exact absurd (by simpa using hcl) h0
      | some c =>
          refine ih K2 (idx + 1) lines (dApplyConstr inst c) (by omega) ?_ ?_
          · intro j hj
            have := hprev (j + 1) (by omega)
            rw [show idx + (j + 1) = idx + 1 + j by omega] at this
            exact this
          · rw [show idx + 1 + i = idx + (i + 1) by omega]
            exact hfail

/-- A constraint line whose first token is none of the five dispatch
keywords is silently skipped by the direct-strategy solver. -/
theorem combDispatch_skip (line : String) (tok : String) (toks : List String)
    (hsplit : pySplit line = tok :: toks)
    (h1 : tok ≠ "Authorisations") (h2 : tok ≠ "Separation-of-duty")
    (h3 : tok ≠ "Binding-of-duty") (h4 : tok ≠ "At-most-k") (h5 : tok ≠ "One-team") :
    combDispatch line = Except.ok none := by
  rw [combDispatch, hsplit]
  dsimp only
  rw [if_neg h1, if_neg h2, if_neg h3, if_neg h4, if_neg h5]

/-- Removing a silently-skipped line from the constraint list does not
change the dispatch result. -/
theorem combDispatchAll_skip (l : String) (hskip : combDispatch l = Except.ok none) :
    ∀ (xs ys : List String),
      combDispatchAll (xs ++ l :: ys) = combDispatchAll (xs ++ ys) := by
  intro xs
  induction xs with
  | nil =>
      intro ys
      rw [List.nil_append, List.nil_append, combDispatchAll, hskip]
  | cons x rest ih =>
      intro ys
      rw [List.cons_append, List.cons_append, combDispatchAll, combDispatchAll, ih ys]

/-- The `#Constraints` header value is parsed and then dropped by
`parse_file` of `solver_combinatorial.py`: two files that differ only in
that integer parse identically. -/
theorem combParseFile_cons_eq (l0 l1 l2 : String) (rest : List String) :
    combParseFile (l0 :: l1 :: l2 :: rest) =
      (match parseHeaderInt l0 with
       | none => Except.error "ValueError: invalid literal for int()"
       | some sc =>
          match parseHeaderInt l1 with
          | none => Except.error "ValueError: invalid literal for int()"
          | some uc =>
              match parseHeaderInt l2 with
              | none => Except.error "ValueError: invalid literal for int()"
              | some _ => (combParseTail rest).map fun p => (sc, uc, p.1, p.2)) := rfl

theorem combParseFile_constraints_header (l0 l1 l2a l2b : String) (rest : List String)
    (k1 k2 : ℤ) (h2a : parseHeaderInt l2a = some k1) (h2b : parseHeaderInt l2b = some k2) :
    combParseFile (l0 :: l1 :: l2a :: rest) = combParseFile (l0 :: l1 :: l2b :: rest) := by
  rw [combParseFile_cons_eq, combParseFile_cons_eq]
  simp only [h2a, h2b]

/-! ## Claim theorems -/

/-- C1 (counterexample): the claim says the result's status field
distinguishes SAT, UNSAT and UNKNOWN; but at backend status UNKNOWN the
result of both solvers is the very same value as at INFEASIBLE, with
status field `'unsat'`. -/
theorem C1_counterexample :
    (combResult CpStatus.unknown ["s1: u1"]).sat = "unsat" ∧
    combResult CpStatus.unknown ["s1: u1"] = combResult CpStatus.infeasible ["s1: u1"] ∧
    (doreenSingleResult CpStatus.unknown ["s1: u1"]).sat = "unsat" :=
  ⟨rfl, rfl, rfl⟩

/-- C1 (amended): the Solver result's status field takes only the two
values `'sat'` and `'unsat'`: OPTIMAL and FEASIBLE map to `'sat'`, and
every other backend status — including UNKNOWN — maps to `'unsat'`.
UNKNOWN is not reported as a distinct outcome from UNSAT. -/
theorem C1_amended (st : CpStatus) (sol : List String) :
    ((combResult st sol).sat = "sat" ∨ (combResult st sol).sat = "unsat") ∧
    ((combResult st sol).sat = "sat" ↔ (st = CpStatus.optimal ∨ st = CpStatus.feasible)) ∧
    ((doreenSingleResult st sol).sat = "sat" ↔
      (st = CpStatus.feasible ∨ st = CpStatus.optimal)) ∧
    ((combResult st sol).sat = "unsat" ↔
      ¬ (st = CpStatus.optimal ∨ st = CpStatus.feasible)) := by
  cases st <;> refine ⟨?_, ?_, ?_, ?_⟩ <;> simp [combResult, doreenSingleResult]

/-- C1 witness: at the concrete status UNKNOWN the amended theorem yields
the `'unsat'` report. -/
theorem C1_witness : (combResult CpStatus.unknown []).sat = "unsat" := by
  have h := C1_amended CpStatus.unknown []
  exact h.2.2.2.mpr (by decide)

theorem combSat_amk_trivial_example :
    combSat 1 1 [Constr.amk 2 [1]] fun _ => 1 := by
  refine ⟨fun s _ => ⟨le_refl 1, le_refl 1⟩, ?_, ?_⟩
  · intro p hp
    simp [firstWinsAuth, firstWinsAuthAux] at hp
  · intro c hc
    rw [List.mem_singleton] at hc
    subst hc
    intro hk
    simp at hk

theorem symSat_amk_slots_unsat : ¬ ∃ a, symSat 1 1 [Constr.amk 2 [1]] a := by
  rintro ⟨a, _, _, hc3, _⟩
  obtain ⟨u, hbnd, hadj, _⟩ := hc3 (Constr.amk 2 [1]) (List.mem_singleton_self _)
  have h01 : u 0 < u 1 := by simpa using hadj 0 (by omega)
  have hb0 := hbnd 0 (by omega)
  have hb1 := hbnd 1 (by omega)
  omega

/-- C2 (counterexample): on the instance with 1 step, 1 user and the
constraint `At-most-k 2 s1` (trivial, since `k` exceeds both the step
count and the user count), the direct strategy's model is satisfiable but
the symmetry strategy's model is unsatisfiable (its two strictly
increasing slot variables cannot fit in the one-user domain): the two
Solver variants do not report SAT identically. -/
theorem C2_counterexample :
    (∃ a, combSat 1 1 [Constr.amk 2 [1]] a) ∧
    ¬ ∃ a, symSat 1 1 [Constr.amk 2 [1]] a :=
  ⟨⟨fun _ => 1, combSat_amk_trivial_example⟩, symSat_amk_slots_unsat⟩

/-- C2 (amended): the two strategies are equisatisfiable — and every
solution of either satisfies `|{assigned(s) : s ∈ S}| ≤ k` for each
At-most-k constraint — provided every At-most-k bound is at most the
users count (otherwise the symmetry slot chain is unsatisfiable by
itself), its steps are in range, and no User-capacity constraint occurs
(the symmetry solver silently ignores those). -/
theorem C2_amended (N M : ℕ) (cs : List Constr)
    (hWF : ∀ c ∈ cs, amkStepsWF N c = true)
    (hB : ∀ c ∈ cs, amkBounded M c = true)
    (hNC : ∀ c ∈ cs, isUserCapC c = false) :
    ((∃ a, combSat N M cs a) ↔ ∃ a, symSat N M cs a) ∧
    (∀ a, combSat N M cs a → ∀ k S, Constr.amk k S ∈ cs → specAtMostK k S a) ∧
    (∀ a, symSat N M cs a → ∀ k S, Constr.amk k S ∈ cs → specAtMostK k S a) := by
  refine ⟨⟨?_, ?_⟩, ?_, ?_⟩
  · rintro ⟨a, ha⟩
    exact ⟨a, (combSat_iff_symSat N M cs a hWF hB hNC).mp ha⟩
  · rintro ⟨a, ha⟩
    exact ⟨a, (combSat_iff_symSat N M cs a hWF hB hNC).mpr ha⟩
  · rintro a ⟨_, _, hc3⟩ k S hmemk
    exact specAtMostK_of_atMostKDirect (hc3 _ hmemk)
  · rintro a ⟨_, _, hc3, _⟩ k S hmemk
    exact specAtMostK_of_atMostKSym (hc3 _ hmemk)

theorem combSat_amk_one_pair :
    combSat 2 2 [Constr.amk 1 [1, 2]] fun _ => 1 := by
  refine ⟨fun s _ => ⟨le_refl 1, one_le_two⟩, ?_, ?_⟩
  · intro p hp
    simp [firstWinsAuth, firstWinsAuthAux] at hp
  · intro c hc
    rw [List.mem_singleton] at hc
    subst hc
    intro _ combo hcombo
    rw [show List.sublistsLen 2 [1, 2] = [[1, 2]] from rfl] at hcombo
    rw [List.mem_singleton] at hcombo
    subst hcombo
    intro hpw
    rw [List.pairwise_cons] at hpw
    exact hpw.1 2 (List.mem_singleton_self 2) rfl

/-- C2 witness: the amended equivalence at a concrete satisfiable
instance produces a symmetry-strategy solution. -/
theorem C2_witness : ∃ a, symSat 2 2 [Constr.amk 1 [1, 2]] a :=
  (C2_amended 2 2 [Constr.amk 1 [1, 2]] (by decide) (by decide) (by decide)).1.mp
    ⟨fun _ => 1, combSat_amk_one_pair⟩

theorem symSat_nil_const : symSat 1 1 [] fun _ => 1 := by
  refine ⟨fun s _ => ⟨le_refl 1, le_refl 1⟩, ?_, ?_, ?_⟩
  · intro p hp
    simp [firstWinsAuth, firstWinsAuthAux] at hp
  · intro c hc
    simp at hc
  · exact ⟨fun _ => 0, fun j hj => by simp [oneTeamData] at hj, fun j1 j2 hj1 => by
      simp [oneTeamData] at hj1⟩

/-- C3 (counterexample): the claim says both strategies detect `k ≥ |S|`
and post nothing; the symmetry strategy does not: adding the trivial
constraint `At-most-k 2 s1` to the empty 1-step 1-user instance turns its
satisfiable model into an unsatisfiable one. -/
theorem C3_counterexample :
    (∃ a, symSat 1 1 [] a) ∧ ¬ ∃ a, symSat 1 1 [Constr.amk 2 [1]] a :=
  ⟨⟨fun _ => 1, symSat_nil_const⟩, symSat_amk_slots_unsat⟩

/-- C3 (amended): only the direct strategy skips a trivial
`AtMostK(k, S)` with `k ≥ |S|` — its model is unconditionally equivalent
to the one without the constraint.  The symmetry strategy posts its slot
encoding regardless; the resulting model is equivalent to dropping the
constraint only under the additional conditions `k ≤ usersCount` and
in-range steps. -/
theorem C3_amended (N M k : ℕ) (S : List ℕ) (cs : List Constr) (a : ℕ → ℕ)
    (hk : S.length ≤ k) :
    (combSat N M (Constr.amk k S :: cs) a ↔ combSat N M cs a) ∧
    (k ≤ M → (∀ s ∈ S, 1 ≤ s ∧ s ≤ N) →
      (symSat N M (Constr.amk k S :: cs) a ↔ symSat N M cs a)) := by
  constructor
  · unfold combSat
    constructor
    · rintro ⟨hdom, hauth, hc3⟩
      exact ⟨hdom, hauth, fun c hc => hc3 c (List.mem_cons_of_mem _ hc)⟩
    · rintro ⟨hdom, hauth, hc3⟩
      refine ⟨hdom, hauth, fun c hc => ?_⟩
      rcases List.mem_cons.mp hc with rfl | hc
      · intro hlen
        omega
      · exact hc3 c hc
  · intro hkM hbndS
    unfold symSat
    constructor
    · rintro ⟨hdom, hauth, hc3, hot⟩
      exact ⟨hdom, hauth, fun c hc => hc3 c (List.mem_cons_of_mem _ hc), hot⟩
    · rintro ⟨hdom, hauth, hc3, hot⟩
      refine ⟨hdom, hauth, fun c hc => ?_, hot⟩
      rcases List.mem_cons.mp hc with rfl | hc
      · refine atMostKSym_of_specAtMostK hkM ?_ ?_
        · intro s hs
          exact hdom s (mem_stepRange.mpr (hbndS s hs))
        · calc ((S.map a).toFinset).card ≤ (S.map a).length := List.toFinset_card_le _
            _ = S.length := List.length_map _ _
            _ ≤ k := hk
      · exact hc3 c hc

/-- C3 witness: at a concrete trivial constraint (`k = 1`, one step, one
user) both equivalences of the amended claim are realised. -/
theorem C3_witness : symSat 1 1 [Constr.amk 1 [1]] fun _ => 1 := by
  have h := (C3_amended 1 1 1 [1] [] (fun _ => 1) (by decide)).2 (by decide) (by decide)
  exact h.mpr symSat_nil_const

/-- C4 (counterexample): the claim says duplicate `Authorisations`
entries are first-wins in both cited solvers; in `solver_doreen.py` the
parser instead extends the user's list.  With one step and two users,
the entries `Authorisations u1` (empty, meaning no step) followed by
`Authorisations u1 s1` compile to a model that admits assigning step 1
to user 1, while the model of the first entry alone (which first-wins
would demand) forbids it. -/
theorem C4_counterexample :
    doreenSat (dParse 1 2 [Constr.auth 1 [], Constr.auth 1 [1]]) (fun _ => 0) ∧
    ¬ doreenSat (dParse 1 2 [Constr.auth 1 []]) (fun _ => 0) := by
  constructor
  · refine ⟨?_, ?_, ?_, ?_, ?_, ?_, ?_⟩
    · intro s hs
      simpa [dParse, dApplyConstr] using Nat.zero_lt_two
    · intro u hu
      have hu2 : u = 0 ∨ u = 1 := by
        simp [dParse, dApplyConstr] at hu
        omega
      rcases hu2 with rfl | rfl
      · show dAuthSat _ 0 ((dParse 1 2 [Constr.auth 1 [], Constr.auth 1 [1]]).auth.getD 0 []) _
        rw [show (dParse 1 2 [Constr.auth 1 [], Constr.auth 1 [1]]).auth.getD 0 [] =
            [-1, 0] from rfl]
        rw [dAuthSat]
        rw [if_neg (by simp)]
        rw [if_pos (by simp)]
        intro s hs hmem
        rw [show (dParse 1 2 [Constr.auth 1 [], Constr.auth 1 [1]]).number_of_steps = 1
          from rfl] at hs
        have hs0 : s = 0 := by omega
        subst hs0
        simp at hmem
      · show dAuthSat _ 1 ((dParse 1 2 [Constr.auth 1 [], Constr.auth 1 [1]]).auth.getD 1 []) _
        rw [show (dParse 1 2 [Constr.auth 1 [], Constr.auth 1 [1]]).auth.getD 1 [] =
            [] from rfl]
        rw [dAuthSat]
        simp
    · intro p hp
      simp [dParse, dApplyConstr] at hp
    · intro p hp
      simp [dParse, dApplyConstr] at hp
    · intro p hp
      simp [dParse, dApplyConstr] at hp
    · intro p hp
      simp [dParse, dApplyConstr] at hp
    · intro p hp
      simp [dParse, dApplyConstr] at hp
  · intro h
    have hauth := h.2.1 0 (by simp [dParse, dApplyConstr])
    rw [show (dParse 1 2 [Constr.auth 1 []]).auth.getD 0 [] = [-1] from rfl] at hauth
    rw [dAuthSat, if_pos (by simp)] at hauth
    exact hauth 0 (by simpa [dParse, dApplyConstr] using Nat.zero_lt_one) rfl

/-- C4 (amended): the first-wins policy holds for the direct-strategy
solver — its compiled model equals that of the instance with later
duplicate `Authorisations` entries removed — while `solver_doreen.py`'s
parser instead concatenates the recorded step lists of all entries of a
user, in file order. -/
theorem C4_amended (N M : ℕ) (cs : List Constr) (u : ℕ) (a : ℕ → ℕ)
    (hu : 1 ≤ u) (huM : u ≤ M) (hpos : ∀ c ∈ cs, authUserPos c = true) :
    (combSat N M cs a ↔ combSat N M (dedupAuth cs) a) ∧
    ((dParse N M cs).auth.getD (u - 1) [] =
      ((authListsFor u cs).map dAuthSteps).flatten) :=
  ⟨combSat_dedupAuth N M cs a, dParse_auth_getD N M cs u hu huM hpos⟩

/-- C4 witness: on the concrete duplicate-entry instance the doreen
parser's accumulated list for user 1 is the concatenation
`[-1] ++ [0]`. -/
theorem C4_witness :
    (dParse 1 2 [Constr.auth 1 [], Constr.auth 1 [1]]).auth.getD 0 [] = [-1, 0] := by
  have h := (C4_amended 1 2 [Constr.auth 1 [], Constr.auth 1 [1]] 1 (fun _ => 0)
    (by decide) (by decide) (by decide)).2
  simpa using h

/-- C5 (confirmed): for an instance whose only `Authorisations` entry for
user `u` declares the step list `A`, every solution of either solver
assigns `u` only to steps of `A`; a declared-empty `A` bars `u` from
every step; and a user `uf` with no entry at all is unconstrained by the
posted authorisation clauses (any step of any satisfying assignment may
be re-assigned to `uf` without violating them). -/
theorem C5_authorisation (N M : ℕ) (cs : List Constr) (u uf : ℕ) (A : List ℕ)
    (a b : ℕ → ℕ) (s0 : ℕ)
    (hfw : (u, A) ∈ firstWinsAuth cs)
    (hcomb : combSat N M cs a)
    (hone : authListsFor u cs = [A])
    (hu1 : 1 ≤ u) (huM : u ≤ M)
    (hA : ∀ x ∈ A, 1 ≤ x)
    (hpos : ∀ c ∈ cs, authUserPos c = true)
    (hdo : doreenSat (dParse N M cs) b)
    (huf : uf ∉ (firstWinsAuth cs).map Prod.fst) :
    (∀ s ∈ stepRange N, a s = u → s ∈ A) ∧
    (A = [] → ∀ s ∈ stepRange N, a s ≠ u) ∧
    (∀ s, s < N → b s = u - 1 → s + 1 ∈ A) ∧
    (A = [] → ∀ s, s < N → b s ≠ u - 1) ∧
    authClause N cs (fun s => if s = s0 then uf else a s) := by
  obtain ⟨hdom, hauth, _⟩ := hcomb
  have hlst : (dParse N M cs).auth.getD (u - 1) [] = dAuthSteps A := by
    rw [dParse_auth_getD N M cs u hu1 huM hpos, hone]
    simp
  have hdA : dAuthSat N (u - 1) (dAuthSteps A) b := by
    have h0 := hdo.2.1 (u - 1) (by rw [(dParse_steps N M cs).2]; omega)
    rw [hlst, (dParse_steps N M cs).1] at h0
    exact h0
  have hdoreenEmpty : A = [] → ∀ s, s < N → b s ≠ u - 1 := by
    intro hAe
    have h2 := hdA
    rw [hAe] at h2
    rw [show dAuthSteps ([] : List ℕ) = [-1] from rfl] at h2
    rw [dAuthSat, if_pos (by simp)] at h2
    exact h2
  have hdoreenIn : ∀ s, s < N → b s = u - 1 → s + 1 ∈ A := by
    intro s hsN hbs
    by_cases hAe : A = []
    · exact absurd hbs (hdoreenEmpty hAe s hsN)
    · have h2 := hdA
      rw [show dAuthSteps A = A.map fun (x : ℕ) => (x : ℤ) - 1 by
        rw [dAuthSteps, if_neg hAe]] at h2
      have hcond1 : ¬ (((A.map fun (x : ℕ) => (x : ℤ) - 1).length = 1) ∧
          ((A.map fun (x : ℕ) => (x : ℤ) - 1).getD 0 0 = -1)) := by
        rintro ⟨hlen, hget⟩
        rw [List.length_map] at hlen
        obtain ⟨x, rfl⟩ : ∃ x, A = [x] := by
          cases A with
          | nil => simp at hlen
          | cons x At =>
              cases At with
              | nil => exact ⟨x, rfl⟩
              | cons y At2 => simp at hlen
        have hx1 := hA x (List.mem_singleton_self x)
        simp at hget
        omega
      rw [dAuthSat, if_neg hcond1,
        if_pos (by simp [List.length_pos, hAe])] at h2
      by_contra hsnA
      refine h2 s hsN ?_ hbs
      intro hmem
      rw [List.mem_map] at hmem
      obtain ⟨x, hxA, hxe⟩ := hmem
      have hx1 := hA x hxA
      have hx : x = s + 1 := by omega
      exact hsnA (hx ▸ hxA)
  refine ⟨?_, ?_, hdoreenIn, hdoreenEmpty, ?_⟩
  · intro s hs hsu
    by_contra hnA
    exact hauth (u, A) hfw s hs hnA hsu
  · intro hAe s hs
    exact hauth (u, A) hfw s hs (by simp [hAe])
  · intro p hp s hs hns
    by_cases hss : s = s0
    · subst hss
      show (if s = s then uf else a s) ≠ p.1
      rw [if_pos rfl]
      intro hcontra
      apply huf
      rw [List.mem_map]
      exact ⟨p, hp, hcontra.symm⟩
    · show (if s = s0 then uf else a s) ≠ p.1
      rw [if_neg hss]
      exact hauth p hp s hs hns

theorem combSat_auth_example :
    combSat 1 2 [Constr.auth 1 [1]] fun _ => 1 := by
  refine ⟨fun s _ => ⟨le_refl 1, one_le_two⟩, ?_, ?_⟩
  · intro p hp s hs hmem
    rw [show firstWinsAuth [Constr.auth 1 [1]] = [(1, [1])] from rfl] at hp
    rw [List.mem_singleton] at hp
    subst hp
    rw [mem_stepRange] at hs
    have hs1 : s = 1 := by omega
    subst hs1
    simp at hmem
  · intro c hc
    rw [List.mem_singleton] at hc
    subst hc
    trivial

theorem doreenSat_auth_example :
    doreenSat (dParse 1 2 [Constr.auth 1 [1]]) fun _ => 0 := by
  refine ⟨?_, ?_, ?_, ?_, ?_, ?_, ?_⟩
  · intro s hs
    simpa [dParse, dApplyConstr] using Nat.zero_lt_two
  · intro v hv
    have hv2 : v = 0 ∨ v = 1 := by
      simp [dParse, dApplyConstr] at hv
      omega
    rcases hv2 with rfl | rfl
    · show dAuthSat _ 0 ((dParse 1 2 [Constr.auth 1 [1]]).auth.getD 0 []) _
      rw [show (dParse 1 2 [Constr.auth 1 [1]]).auth.getD 0 [] = [0] from rfl]
      rw [dAuthSat, if_neg (by simp), if_pos (by simp)]
      intro s hs hmem
      rw [show (dParse 1 2 [Constr.auth 1 [1]]).number_of_steps = 1 from rfl] at hs
      have hs0 : s = 0 := by omega
      subst hs0
      simp at hmem
    · show dAuthSat _ 1 ((dParse 1 2 [Constr.auth 1 [1]]).auth.getD 1 []) _
      rw [show (dParse 1 2 [Constr.auth 1 [1]]).auth.getD 1 [] = [] from rfl]
      rw [dAuthSat]
      simp
  · intro p hp
    simp [dParse, dApplyConstr] at hp
  · intro p hp
    simp [dParse, dApplyConstr] at hp
  · intro p hp
    simp [dParse, dApplyConstr] at hp
  · intro p hp
    simp [dParse, dApplyConstr] at hp
  · intro p hp
    simp [dParse, dApplyConstr] at hp

/-- C5 witness: the authorisation semantics at a concrete instance
(`Authorisations u1 s1`, one step, two users): user 1's only possible
step is step 1, and re-assigning any step to the unrestricted user 2
keeps the authorisation clauses satisfied. -/
theorem C5_witness :
    (∀ s ∈ stepRange 1, (fun _ => 1) s = 1 → s ∈ [1]) ∧
    authClause 1 [Constr.auth 1 [1]] (fun s => if s = 1 then 2 else 1) := by
  have h := C5_authorisation 1 2 [Constr.auth 1 [1]] 1 2 [1]
    (fun _ => 1) (fun _ => 0) 1
    (by decide) combSat_auth_example (by decide) (by decide) (by decide)
    (by decide) (by decide) doreenSat_auth_example (by decide)
  exact ⟨h.1, h.2.2.2.2⟩

/-- C6 (confirmed): multi-solution enumeration with limit `L ≥ 1` over
the backend's (distinct, model-satisfying) solution stream records at
most `L` solutions, all distinct and each satisfying the compiled model;
it records fewer than `L` only when the model has fewer than `L`
solutions in total; and it signals `StopSearch` exactly when more than
`L` solutions exist, rather than continuing the enumeration. -/
theorem C6_enumeration (inst : DInstance) (L : ℕ) (sols : List (ℕ → ℕ))
    (hL : 1 ≤ L) (hnd : sols.Nodup) (hvalid : ∀ x ∈ sols, doreenSat inst x) :
    (runEnum L sols).found.length ≤ L ∧
    (runEnum L sols).found.Nodup ∧
    (∀ x ∈ (runEnum L sols).found, doreenSat inst x) ∧
    ((runEnum L sols).found.length < L → sols.length < L) ∧
    ((runEnum L sols).found.length = min L sols.length) ∧
    ((runEnum L sols).stopped = true ↔ L < sols.length) := by
  obtain ⟨hf, hs⟩ := runEnum_spec L sols
  rw [hf]
  refine ⟨?_, ?_, ?_, ?_, ?_, hs⟩
  · rw [List.length_take]
    omega
  · exact hnd.sublist (List.take_sublist L sols)
  · intro x hx
    exact hvalid x ((List.take_sublist L sols).subset hx)
  · rw [List.length_take]
    omega
  · rw [List.length_take]

theorem doreenSat_empty_instance :
    doreenSat (dParse 1 1 []) fun _ => 0 := by
  refine ⟨?_, ?_, ?_, ?_, ?_, ?_, ?_⟩
  · intro s hs
    simpa [dParse] using Nat.zero_lt_one
  · intro v hv
    have hv0 : v = 0 := by
      simp [dParse] at hv
      omega
    subst hv0
    show dAuthSat _ 0 ((dParse 1 1 []).auth.getD 0 []) _
    rw [show (dParse 1 1 []).auth.getD 0 [] = [] from rfl]
    rw [dAuthSat]
    simp
  · intro p hp
    simp [dParse] at hp
  · intro p hp
    simp [dParse] at hp
  · intro p hp
    simp [dParse] at hp
  · intro p hp
    simp [dParse] at hp
  · intro p hp
    simp [dParse] at hp

/-- C6 witness: a concrete enumeration with limit 2 over a one-solution
instance records that single valid solution, does not stop the search
(nothing more exists), and its shortfall certifies the solution space is
smaller than the limit. -/
theorem C6_witness :
    (runEnum 2 [(fun _ => 0 : ℕ → ℕ)]).found.length = 1 ∧
    ((runEnum 2 [(fun _ => 0 : ℕ → ℕ)]).stopped = true ↔ (2 : ℕ) < 1) := by
  have h := C6_enumeration (dParse 1 1 []) 2 [(fun _ => 0 : ℕ → ℕ)] (by omega)
    (List.nodup_singleton _) (by
      intro x hx
      rw [List.mem_singleton] at hx
      subst hx
      exact doreenSat_empty_instance)
  refine ⟨?_, h.2.2.2.2.2⟩
  rw [h.2.2.2.2.1]
  rfl

/-- C7 (counterexample): the claim says an unknown constraint keyword
makes parsing fail with no line silently skipped; but the direct-strategy
solver's pipeline accepts the file whose only constraint line is
`Frobnicate 1` — the line is silently dropped and nothing is compiled —
while the doreen parser does raise on the same file. -/
theorem C7_counterexample :
    combCompile ["#Steps: 1", "#Users: 1", "#Constraints: 1", "Frobnicate 1"] =
      Except.ok (1, 1, [], []) ∧
    dParseFile ["#Steps: 1", "#Users: 1", "#Constraints: 1", "Frobnicate 1"] =
      Except.error "Cannot parse line => Frobnicate 1" := by
  constructor
  · rfl
  · rfl

/-- C7 (amended): only the doreen parser rejects malformed input: with
well-formed headers, the first unclassifiable line within the declared
constraint count makes `parse_file` raise (before any compilation).  The
direct-strategy solver instead silently skips any constraint line whose
first token is none of its five dispatch keywords: such a line leaves
the dispatch result — hence the compiled model — unchanged. -/
theorem C7_amended (lines : List String) (N M K i : ℕ)
    (l tok : String) (toks : List String)
    (h0 : readAttribute "#Steps" (lines.getD 0 "") = some N)
    (h1 : readAttribute "#Users" (lines.getD 1 "") = some M)
    (h2 : readAttribute "#Constraints" (lines.getD 2 "") = some K)
    (hi : i < K)
    (hprev : ∀ j, j < i → dClassify (pyStrip (lines.getD (3 + j) "")) ≠ none)
    (hfail : dClassify (pyStrip (lines.getD (3 + i) "")) = none)
    (hsplit : pySplit l = tok :: toks)
    (hkw1 : tok ≠ "Authorisations") (hkw2 : tok ≠ "Separation-of-duty")
    (hkw3 : tok ≠ "Binding-of-duty") (hkw4 : tok ≠ "At-most-k")
    (hkw5 : tok ≠ "One-team") :
    (∃ msg, dParseFile lines = Except.error msg) ∧
    combDispatch l = Except.ok none ∧
    ∀ xs ys, combDispatchAll (xs ++ l :: ys) = combDispatchAll (xs ++ ys) := by
  have hskip := combDispatch_skip l tok toks hsplit hkw1 hkw2 hkw3 hkw4 hkw5
  refine ⟨?_, hskip, combDispatchAll_skip l hskip⟩
  rw [dParseFile, h0, h1, h2]
  exact dReadConstraints_error i K 3 lines _ hi hprev hfail

/-- C7 witness: at the concrete malformed file the amended behaviour is
realised on both sides. -/
theorem C7_witness :
    (∃ msg, dParseFile ["#Steps: 1", "#Users: 1", "#Constraints: 1", "Frobnicate 1"] =
      Except.error msg) ∧
    combDispatch "Frobnicate 1" = Except.ok none := by
  have h := C7_amended ["#Steps: 1", "#Users: 1", "#Constraints: 1", "Frobnicate 1"]
    1 1 1 0 "Frobnicate 1" "Frobnicate" ["1"]
    rfl rfl rfl (by omega) (fun j hj => absurd hj (by omega)) rfl rfl
    (by decide) (by decide) (by decide) (by decide) (by decide)
  exact ⟨h.1, h.2.1⟩

/-- C8 (confirmed): every solution of either solver draws the users of a
One-team constraint's steps from one single team, and the direct
strategy's allowed-assignment table is exactly the union, over each team,
of all `|S|`-tuples over that team. -/
theorem C8_oneTeam (N M : ℕ) (cs : List Constr) (S : List ℕ) (teams : List (List ℕ))
    (a b : ℕ → ℕ)
    (hmem : Constr.oneTeam S teams ∈ cs)
    (hS : S ≠ []) (ht : teams ≠ [])
    (hcomb : combSat N M cs a)
    (hdo : doreenSat (dParse N M cs) b)
    (hwf : ∀ s ∈ S, 1 ≤ s ∧ s ≤ N) :
    (∃ t ∈ teams, ∀ s ∈ S, a s ∈ t) ∧
    (∃ t ∈ teams, ∀ s ∈ S, b (s - 1) ∈ t.map fun (x : ℕ) => x - 1) ∧
    (∀ m tup, tup ∈ allowedCombinations teams m ↔
      ∃ t ∈ teams, tup.length = m ∧ ∀ x ∈ tup, x ∈ t) := by
  refine ⟨?_, ?_, fun m tup => mem_allowedCombinations teams m tup⟩
  · exact (oneTeamDirect_iff S teams a hS ht).mp (hcomb.2.2 _ hmem)
  · have hentry : ((S.map fun (s : ℕ) => s - 1),
        teams.map (List.map fun (x : ℕ) => x - 1)) ∈ (dParse N M cs).one_team := by
      rw [dParse_one_team]
      rw [List.mem_filterMap]
      exact ⟨Constr.oneTeam S teams, hmem, rfl⟩
    obtain ⟨i, hi, hcov⟩ := hdo.2.2.2.2.2.1 _ hentry
    rw [List.length_map] at hi
    refine ⟨teams.get ⟨i, hi⟩, List.get_mem _ _ _, ?_⟩
    intro s hs
    have hsN : s - 1 < (dParse N M cs).number_of_steps := by
      rw [(dParse_steps N M cs).1]
      have := hwf s hs
      omega
    have hbs : b (s - 1) < (dParse N M cs).number_of_users := hdo.1 _ hsN
    by_contra hbn
    refine hcov (s - 1) (List.mem_map_of_mem _ hs) (b (s - 1)) hbs ?_ rfl
    intro hmem2
    apply hbn
    have hgd : (teams.map (List.map fun (x : ℕ) => x - 1)).getD i [] =
        (teams.get ⟨i, hi⟩).map fun (x : ℕ) => x - 1 := by
      rw [List.getD_eq_get _ _ (by rw [List.length_map]; exact hi)]
      rw [List.get_map]
    rw [hgd] at hmem2
    exact hmem2

theorem combSat_oneTeam_example :
    combSat 1 2 [Constr.oneTeam [1] [[1], [2]]] fun _ => 1 := by
  refine ⟨fun s _ => ⟨le_refl 1, one_le_two⟩, ?_, ?_⟩
  · intro p hp
    simp [firstWinsAuth, firstWinsAuthAux] at hp
  · intro c hc
    rw [List.mem_singleton] at hc
    subst hc
    intro _ _
    show [1].map (fun _ => 1) ∈ allowedCombinations [[1], [2]] ([1].length)
    rw [mem_allowedCombinations]
    exact ⟨[1], List.mem_cons_self _ _, rfl, by
      intro x hx
      simp at hx
      subst hx
      exact List.mem_singleton_self 1⟩

theorem doreenSat_oneTeam_example :
    doreenSat (dParse 1 2 [Constr.oneTeam [1] [[1], [2]]]) fun _ => 0 := by
  refine ⟨?_, ?_, ?_, ?_, ?_, ?_, ?_⟩
  · intro s hs
    simpa [dParse, dApplyConstr] using Nat.zero_lt_two
  · intro v hv
    have hv2 : v = 0 ∨ v = 1 := by
      simp [dParse, dApplyConstr] at hv
      omega
    have hnil : ∀ w : ℕ,
        (dParse 1 2 [Constr.oneTeam [1] [[1], [2]]]).auth.getD w [] = [] := by
      intro w
      show (List.replicate 2 ([] : List ℤ)).getD w [] = []
      cases w with
      | zero => rfl
      | succ w2 =>
          cases w2 with
          | zero => rfl
          | succ w3 => rfl
    rcases hv2 with rfl | rfl <;>
      · show dAuthSat _ _ ((dParse 1 2 [Constr.oneTeam [1] [[1], [2]]]).auth.getD _ []) _
        rw [hnil]
        rw [dAuthSat]
        simp
  · intro p hp
    simp [dParse, dApplyConstr] at hp
  · intro p hp
    simp [dParse, dApplyConstr] at hp
  · intro p hp
    simp [dParse, dApplyConstr] at hp
  · intro p hp
    rw [show (dParse 1 2 [Constr.oneTeam [1] [[1], [2]]]).one_team =
        [([0], [[0], [1]])] from rfl] at hp
    rw [List.mem_singleton] at hp
    subst hp
    refine ⟨0, by simp, ?_⟩
    intro s hs u hu hun
    rw [List.mem_singleton] at hs
    subst hs
    intro hb0
    apply hun
    rw [show ([[0], [1]] : List (List ℕ)).getD 0 [] = [0] from rfl]
    rw [← hb0]
    exact List.mem_singleton_self 0
  · intro p hp
    simp [dParse, dApplyConstr] at hp

/-- C8 witness: the One-team semantics at a concrete instance
(steps `[s1]`, teams `(u1)` and `(u2)`) with concrete solutions of both
solvers. -/
theorem C8_witness :
    (∃ t ∈ [[1], [2]], ∀ s ∈ [1], (fun _ => 1) s ∈ t) ∧
    ([1, 2] ∈ allowedCombinations [[1], [2]] 2 ↔
      ∃ t ∈ [[1], [2]], ([1, 2] : List ℕ).length = 2 ∧ ∀ x ∈ [1, 2], x ∈ t) := by
  have h := C8_oneTeam 1 2 [Constr.oneTeam [1] [[1], [2]]] [1] [[1], [2]]
    (fun _ => 1) (fun _ => 0) (List.mem_singleton_self _) (by decide) (by decide)
    combSat_oneTeam_example doreenSat_oneTeam_example (by decide)
  exact ⟨h.1, h.2.2 2 [1, 2]⟩

/-- C9 (confirmed): the `#Constraints` header count of the
direct-strategy parser is read (it must parse as an integer) but never
used: two files identical except for that integer produce identical
`parse_file` results, identical compiled constraint data, and hence
identical Solver outcomes. -/
theorem C9_header_ignored (l0 l1 l2a l2b : String) (rest : List String) (k1 k2 : ℤ)
    (h2a : parseHeaderInt l2a = some k1) (h2b : parseHeaderInt l2b = some k2) :
    combParseFile (l0 :: l1 :: l2a :: rest) = combParseFile (l0 :: l1 :: l2b :: rest) ∧
    combCompile (l0 :: l1 :: l2a :: rest) = combCompile (l0 :: l1 :: l2b :: rest) := by
  have h := combParseFile_constraints_header l0 l1 l2a l2b rest k1 k2 h2a h2b
  refine ⟨h, ?_⟩
  rw [combCompile, combCompile, h]

/-- C9 witness: a concrete pair of files whose `#Constraints` counts are
5 and 99 parse and compile identically. -/
theorem C9_witness :
    combCompile ["#Steps: 2", "#Users: 2", "#Constraints: 5", "Separation-of-duty s1 s2"] =
      combCompile ["#Steps: 2", "#Users: 2", "#Constraints: 99", "Separation-of-duty s1 s2"] :=
  (C9_header_ignored "#Steps: 2" "#Users: 2" "#Constraints: 5" "#Constraints: 99"
    ["Separation-of-duty s1 s2"] 5 99 rfl rfl).2

/-- C10 (confirmed): the multi-solution result reports `'sat'` exactly
when at least one solution was recorded; on `'sat'` its primary solution
is the first recorded one and its packaged text has exactly one block per
recorded solution, numbered in discovery order; on `'unsat'` the primary
solution and the packaged text are empty. -/
theorem C10_multi_packaging (sf : List (List String)) :
    ((doreenMultiResult sf).sat = "sat" ↔ sf ≠ []) ∧
    ((doreenMultiResult sf).sat = "sat" ∨ (doreenMultiResult sf).sat = "unsat") ∧
    (∀ x rest, sf = x :: rest → (doreenMultiResult sf).sol = x) ∧
    (sf = [] → (doreenMultiResult sf).sol = [] ∧ (doreenMultiResult sf).mul_sol = "") ∧
    (sf ≠ [] → (doreenMultiResult sf).mul_sol =
      String.intercalate "\n\n" (solutionBlocks sf)) ∧
    ((solutionBlocks sf).length = sf.length) ∧
    (∀ i, i < sf.length → (solutionBlocks sf).getD i "" =
      "Solution " ++ toString (i + 1) ++ ":\n" ++
        String.intercalate "\n" (sf.getD i [])) := by
  have hlen : (solutionBlocks sf).length = sf.length := by
    rw [solutionBlocks, List.length_map, List.length_range]
  refine ⟨?_, ?_, ?_, ?_, ?_, hlen, ?_⟩
  · cases sf with
    | nil => simp [doreenMultiResult]
    | cons x rest =>
        rw [doreenMultiResult, if_pos (by simp)]
        simp
  · cases sf with
    | nil =>
        rw [doreenMultiResult, if_neg (by simp)]
        exact Or.inr rfl
    | cons x rest =>
        rw [doreenMultiResult, if_pos (by simp)]
        exact Or.inl rfl
  · intro x rest hsf
    subst hsf
    rw [doreenMultiResult, if_pos (by simp)]
    rfl
  · intro hsf
    subst hsf
    rw [doreenMultiResult, if_neg (by simp)]
    exact ⟨rfl, rfl⟩
  · intro hsf
    cases sf with
    | nil => exact absurd rfl hsf
    | cons x rest => rw [doreenMultiResult, if_pos (by simp)]
  · intro i hi
    rw [solutionBlocks]
    rw [List.getD_eq_get _ _ (by rw [List.length_map, List.length_range]; exact hi)]
    rw [List.get_map]
    simp [List.get_range]

/-- C10 witness: the packaging at a concrete two-solution record. -/
theorem C10_witness :
    (doreenMultiResult [["s1: u1"], ["s1: u2"]]).sat = "sat" ∧
    (doreenMultiResult [["s1: u1"], ["s1: u2"]]).sol = ["s1: u1"] ∧
    (solutionBlocks [["s1: u1"], ["s1: u2"]]).length = 2 := by
  have h := C10_multi_packaging [["s1: u1"], ["s1: u2"]]
  exact ⟨h.1.mpr (by simp), h.2.2.1 ["s1: u1"] [["s1: u2"]] rfl, h.2.2.2.2.2.1⟩
